import Mathlib

/-!
# Bitwise buffer/filter library (`bitops.h`, `bitops.cpp`)

A shallow embedding of the width-overloaded bit manipulation functions.

Modelling conventions.

* A register of type `uintN_t` is a natural number below `2 ^ N`.
* `int` parameters (`index`, `start_bit`, `length`, `shift`) are integers.
* `int` and `unsigned int` have 32 bits, `unsigned long long` has 64 bits.
* Every arithmetic expression is evaluated in the type C++ gives it after the
  integral promotions: `uint8_t` and `uint16_t` operands are promoted to the
  signed 32-bit `int`, `uint32_t` stays `unsigned int`, `uint64_t` stays
  `unsigned long long`.  A value of that type is represented by its bit
  pattern, a natural number below `2 ^ A` where `A` is the width of the type
  (two's complement for `int`).
* The shift operators follow [expr.shift] of C++14 (the sources use binary
  literals, a C++14 feature): the behaviour is undefined when the right
  operand is negative or not smaller than the width of the promoted left
  operand; a left shift of a signed operand is undefined when the operand is
  negative or when the mathematical result does not fit the corresponding
  unsigned type.  Undefined behaviour is `none`.
* Storing into, or returning as, a `uintN_t` reduces modulo `2 ^ N`.
* Next to this reading of the standard, `set_bit_fieldB`, `RotateLeftB` and
  `RotateRightB` embed the same function bodies as the compiled code runs
  them: a shift whose count is at least the width of the type, which the
  standard leaves undefined, has the value the generated code computes, one
  of the two of `Build`.  For every count below the width the two readings
  are the same.
-/

namespace Bitops

/-- The four register types `uint8_t`, `uint16_t`, `uint32_t`, `uint64_t`. -/
inductive Width where
  | w8 : Width
  | w16 : Width
  | w32 : Width
  | w64 : Width
  deriving DecidableEq, Repr

/-- Number of value bits `N` of the register type. -/
def Width.bits : Width → Nat
  | .w8 => 8
  | .w16 => 16
  | .w32 => 32
  | .w64 => 64

/-- Width `A` of the type in which an expression over a register of this type
is evaluated: `int` for `uint8_t`/`uint16_t`, `unsigned int` for `uint32_t`,
`unsigned long long` for `uint64_t`.  It is also the width of the literal used
by the overload (`1U` for the first three, `1ULL` for the last). -/
def Width.arith : Width → Nat
  | .w8 => 32
  | .w16 => 32
  | .w32 => 32
  | .w64 => 64

/-- Whether a register operand is promoted to the signed type `int`. -/
def Width.promoted : Width → Bool
  | .w8 => true
  | .w16 => true
  | .w32 => false
  | .w64 => false

/-- C++ `x << k` in a type of `A` bits (`sgn` tells whether it is signed),
on bit patterns. -/
def shl (A : Nat) (sgn : Bool) (x : Nat) (k : Int) : Option Nat :=
  if k < 0 ∨ (A : Int) ≤ k then none
  else if sgn = true ∧ (2 ^ (A - 1) ≤ x ∨ 2 ^ A ≤ x <<< k.toNat) then none
  else some ((x <<< k.toNat) % 2 ^ A)

/-- C++ `x >> k` in a type of `A` bits, for a non-negative operand (every
right shift of the library is applied to a register, which is non-negative
also after promotion to `int`). -/
def shr (A : Nat) (x : Nat) (k : Int) : Option Nat :=
  if k < 0 ∨ (A : Int) ≤ k then none
  else some (x >>> k.toNat)

/-- C++ `x - 1` in a type of `A` bits: modular when unsigned, undefined on
overflow (`x` is the least `int`) when signed. -/
def sub1 (A : Nat) (sgn : Bool) (x : Nat) : Option Nat :=
  if sgn = true ∧ x = 2 ^ (A - 1) then none
  else some ((x + (2 ^ A - 1)) % 2 ^ A)

/-- C++ `~x` in a type of `A` bits. -/
def bnot (A : Nat) (x : Nat) : Nat :=
  (2 ^ A - 1) ^^^ x

/-- Conversion of a value of the arithmetic type to `uintN_t`. -/
def narrow (w : Width) (x : Nat) : Nat :=
  x % 2 ^ w.bits

/-- The inline mask of `get_bit_field` / `set_bit_field`:
`uintN_t mask = (1U << length) - 1U;` (`1ULL` for `uint64_t`). -/
def fieldMask (w : Width) (length : Int) : Option Nat := do
  let one ← shl w.arith false 1 length
  let d ← sub1 w.arith false one
  pure (narrow w d)

/-- The function `get_bit_field(reg, start_bit, length)`:
`mask = (1U << length) - 1U; return (reg >> start_bit) & mask;`. -/
def get_bit_field (w : Width) (reg : Nat) (start_bit length : Int) : Option Nat := do
  let mask ← fieldMask w length
  let sh ← shr w.arith reg start_bit
  pure (narrow w (sh &&& mask))

/-- The function `set_bit_field(reg, start_bit, length, new_value)`:
`mask = (1U << length) - 1U; reg &= ~(mask << start_bit); new_value &= mask;
reg |= (new_value << start_bit); return reg;`. -/
def set_bit_field (w : Width) (reg : Nat) (start_bit length : Int) (new_value : Nat) :
    Option Nat := do
  let mask ← fieldMask w length
  let m ← shl w.arith w.promoted mask start_bit
  let reg1 := narrow w (reg &&& bnot w.arith m)
  let nv := narrow w (new_value &&& mask)
  let sv ← shl w.arith w.promoted nv start_bit
  pure (narrow w (reg1 ||| sv))

/-- The template `CreateMask<T>(length, start_bit)`:
`T mask = ((T)1 << length) - (T)1; return mask << start_bit;`. -/
def CreateMask (w : Width) (length start_bit : Int) : Option Nat := do
  let one ← shl w.arith w.promoted 1 length
  let d ← sub1 w.arith w.promoted one
  let mask := narrow w d
  let r ← shl w.arith w.promoted mask start_bit
  pure (narrow w r)

/-- The function `RotateLeft(reg, shift)`:
`shift %= N; return (reg << shift) | (reg >> (N - shift));`.
`%` is the truncating remainder of C++. -/
def RotateLeft (w : Width) (reg : Nat) (shift : Int) : Option Nat := do
  let N : Int := w.bits
  let s := Int.tmod shift N
  let a ← shl w.arith w.promoted reg s
  let b ← shr w.arith reg (N - s)
  pure (narrow w (a ||| b))

/-- The function `RotateRight(reg, shift)`:
`shift %= N; return (reg >> shift) | (reg << (N - shift));`. -/
def RotateRight (w : Width) (reg : Nat) (shift : Int) : Option Nat := do
  let N : Int := w.bits
  let s := Int.tmod shift N
  let a ← shr w.arith reg s
  let b ← shl w.arith w.promoted reg (N - s)
  pure (narrow w (a ||| b))

/-- The template `ReverseMask<T>(length, start_bit)`:
`T mask = ((T)1 << length) - (T)1; return ~(mask << start_bit);`. -/
def ReverseMask (w : Width) (length start_bit : Int) : Option Nat := do
  let one ← shl w.arith w.promoted 1 length
  let d ← sub1 w.arith w.promoted one
  let mask := narrow w d
  let r ← shl w.arith w.promoted mask start_bit
  pure (narrow w (bnot w.arith r))

/-- The function `SetRegBit(reg, index)`: `return reg | ((uint8_t)1 << index);`
(`(uint16_t)1`, `1U`, `1ULL` in the other overloads). -/
def SetRegBit (w : Width) (reg : Nat) (index : Int) : Option Nat := do
  let m ← shl w.arith w.promoted 1 index
  pure (narrow w (reg ||| m))

/-- The function `ClearRegBit(reg, index)`: `return reg & ~((uint8_t)1 << index);`
(`(uint16_t)1`, `1U`, `1ULL` in the other overloads). -/
def ClearRegBit (w : Width) (reg : Nat) (index : Int) : Option Nat := do
  let m ← shl w.arith w.promoted 1 index
  pure (narrow w (reg &&& bnot w.arith m))

/-- The function `ToggleRegBit(reg, index)`: `return reg ^ ((uint8_t)1 << index);`
(`(uint16_t)1`, `1U`, `1ULL` in the other overloads). -/
def ToggleRegBit (w : Width) (reg : Nat) (index : Int) : Option Nat := do
  let m ← shl w.arith w.promoted 1 index
  pure (narrow w (reg ^^^ m))

/-- The function `isBitSet(reg, index)`: `return (reg >> index) & 1;`, converted
to `bool`. -/
def isBitSet (w : Width) (reg : Nat) (index : Int) : Option Bool := do
  let s ← shr w.arith reg index
  pure (decide (s &&& 1 ≠ 0))

/-- The loop of `count_set_bits`,
`while (reg != 0) { if (reg & 1U) count++; reg >>= 1; }`, run for at most
`fuel` executions of its body; `none` when the fuel does not suffice. -/
def count_loop (w : Width) : Nat → Nat → Nat → Option Nat
  | 0, reg, count => if reg = 0 then some count else none
  | fuel + 1, reg, count =>
    if reg = 0 then some count
    else count_loop w fuel (narrow w (reg >>> 1)) (if reg &&& 1 ≠ 0 then count + 1 else count)

/-- The function `count_set_bits(reg)`: `int count = 0;`, the loop,
`return count;`.  The count never exceeds 64 and is kept as a natural number. -/
def count_set_bits (w : Width) (fuel : Nat) (reg : Nat) : Option Nat :=
  count_loop w fuel reg 0

/-- The loop of `find_first_set_bit`,
`while (!(reg & 1U)) { reg >>= 1; count++; }`, run for at most `fuel`
executions of its body; `none` when the fuel does not suffice. -/
def first_set_loop (w : Width) : Nat → Nat → Nat → Option Nat
  | 0, reg, count => if reg &&& 1 ≠ 0 then some count else none
  | fuel + 1, reg, count =>
    if reg &&& 1 ≠ 0 then some count
    else first_set_loop w fuel (narrow w (reg >>> 1)) (count + 1)

/-- The function `find_first_set_bit(reg)`: `if (reg == 0) return -1;`,
`int count = 0;`, the loop, `return count;`. -/
def find_first_set_bit (w : Width) (fuel : Nat) (reg : Nat) : Option Int :=
  if reg = 0 then some (-1)
  else (first_set_loop w fuel reg 0).map Int.ofNat

/-- The function `is_power_of_two(num)`:
`return (num > 0) && ((num & (num - 1)) == 0);`.  The right operand of `&&` is
evaluated only when `num > 0`, where `num - 1` does not wrap. -/
def is_power_of_two (_w : Width) (num : Nat) : Bool :=
  if 0 < num then decide (num &&& (num - 1) = 0) else false

/-! ## The shifts as the compiled code evaluates them -/

/-- What the generated code computes for a shift whose count is at least the
width of the type of the left operand: `countModWidth`, the count is taken
modulo the width, as a shift instruction that keeps only the low bits of its
count does; `shiftedOut`, every bit leaves the operand and the result is `0`. -/
inductive Build where
  | countModWidth : Build
  | shiftedOut : Build
  deriving DecidableEq, Repr

/-- C++ `x << k` in a type of `A` bits as the build `p` evaluates it: `shl`
for a count below the width, the value of `p` for a count from the width on.
A negative count stays without a value. -/
def shlB (p : Build) (A : Nat) (sgn : Bool) (x : Nat) (k : Int) : Option Nat :=
  if (A : Int) ≤ k then
    match p with
    | .countModWidth => shl A sgn x (k % (A : Int))
    | .shiftedOut => some 0
  else shl A sgn x k

/-- C++ `x >> k` in a type of `A` bits as the build `p` evaluates it: `shr`
for a count below the width, the value of `p` for a count from the width on.
A negative count stays without a value. -/
def shrB (p : Build) (A : Nat) (x : Nat) (k : Int) : Option Nat :=
  if (A : Int) ≤ k then
    match p with
    | .countModWidth => shr A x (k % (A : Int))
    | .shiftedOut => some 0
  else shr A x k

/-- The function `RotateLeft(reg, shift)`,
`shift %= N; return (reg << shift) | (reg >> (N - shift));`, as the build `p`
evaluates its shifts. -/
def RotateLeftB (p : Build) (w : Width) (reg : Nat) (shift : Int) : Option Nat := do
  let N : Int := w.bits
  let s := Int.tmod shift N
  let a ← shlB p w.arith w.promoted reg s
  let b ← shrB p w.arith reg (N - s)
  pure (narrow w (a ||| b))

/-- The function `RotateRight(reg, shift)`,
`shift %= N; return (reg >> shift) | (reg << (N - shift));`, as the build `p`
evaluates its shifts. -/
def RotateRightB (p : Build) (w : Width) (reg : Nat) (shift : Int) : Option Nat := do
  let N : Int := w.bits
  let s := Int.tmod shift N
  let a ← shrB p w.arith reg s
  let b ← shlB p w.arith w.promoted reg (N - s)
  pure (narrow w (a ||| b))

/-! ## Closed forms used in the proofs -/

/-- Closed form of the value of `set_bit_field` when all its shifts are in
range: the three statements of the body with `mask = 2^l - 1`. -/
def writeResult (w : Width) (reg s l nv : Nat) : Nat :=
  narrow w (narrow w (reg &&& bnot w.arith ((2 ^ l - 1) <<< s)) ||| ((nv % 2 ^ l) <<< s))

/-- Closed form of the value of `RotateLeft` for a reduced shift `t`. -/
def rotl (N reg t : Nat) : Nat :=
  ((reg <<< t) ||| (reg >>> (N - t))) % 2 ^ N

/-- Closed form of the value of `RotateRight` for a reduced shift `t`. -/
def rotr (N reg t : Nat) : Nat :=
  ((reg >>> t) ||| (reg <<< (N - t))) % 2 ^ N

/-! ## Arithmetic helper lemmas -/

theorem Width.bits_le_arith (w : Width) : w.bits ≤ w.arith := by
  cases w <;> decide

theorem Width.bits_pos (w : Width) : 0 < w.bits := by
  cases w <;> decide

theorem Width.promoted_bits (w : Width) (h : w.promoted = true) : w.bits ≤ 16 := by
  cases w <;> simp_all [Width.promoted, Width.bits]

theorem Width.promoted_arith (w : Width) (h : w.promoted = true) : w.arith = 32 := by
  cases w <;> simp_all [Width.promoted, Width.arith]

theorem shl_of_fits {A : Nat} {sgn : Bool} {x k : Nat} (hk : k < A)
    (hfit : x <<< k < 2 ^ A) (hs : sgn = true → x < 2 ^ (A - 1)) :
    shl A sgn x (k : Int) = some (x <<< k) := by
  unfold shl
  have h1 : ¬ ((k : Int) < 0 ∨ (A : Int) ≤ (k : Int)) := by omega
  rw [if_neg h1]
  have h2 : ¬ (sgn = true ∧ (2 ^ (A - 1) ≤ x ∨ 2 ^ A ≤ x <<< (k : Int).toNat)) := by
    rintro ⟨hsg, h | h⟩
    · have := hs hsg; omega
    · simp only [Int.toNat_ofNat] at h; omega
  rw [if_neg h2]
  simp only [Int.toNat_ofNat]
  rw [Nat.mod_eq_of_lt hfit]

theorem shl_unsigned {A : Nat} {x k : Nat} (hk : k < A) :
    shl A false x (k : Int) = some ((x <<< k) % 2 ^ A) := by
  unfold shl
  have h1 : ¬ ((k : Int) < 0 ∨ (A : Int) ≤ (k : Int)) := by omega
  rw [if_neg h1]
  simp

theorem shl_width (A : Nat) (sgn : Bool) (x : Nat) : shl A sgn x (A : Int) = none := by
  unfold shl
  simp

theorem shl_neg (A : Nat) (sgn : Bool) (x : Nat) {k : Int} (hk : k < 0) :
    shl A sgn x k = none := by
  unfold shl
  simp [hk]

theorem shr_of_lt {A : Nat} {x k : Nat} (hk : k < A) :
    shr A x (k : Int) = some (x >>> k) := by
  unfold shr
  have h1 : ¬ ((k : Int) < 0 ∨ (A : Int) ≤ (k : Int)) := by omega
  rw [if_neg h1]
  simp

theorem shr_width (A : Nat) (x : Nat) : shr A x (A : Int) = none := by
  unfold shr
  simp

theorem shiftLeft_lt_two_pow {x a k n : Nat} (hx : x < 2 ^ a) (h : a + k ≤ n) :
    x <<< k < 2 ^ n := by
  rw [Nat.shiftLeft_eq]
  calc x * 2 ^ k < 2 ^ a * 2 ^ k := Nat.mul_lt_mul_of_pos_right hx (Nat.two_pow_pos k)
    _ = 2 ^ (a + k) := (Nat.pow_add 2 a k).symm
    _ ≤ 2 ^ n := Nat.pow_le_pow_right (by decide) h

theorem two_pow_sub_one_lt (l : Nat) : 2 ^ l - 1 < 2 ^ l :=
  Nat.sub_lt (Nat.two_pow_pos l) (by decide)

theorem fieldMask_eq (w : Width) {l : Nat} (hl : l ≤ w.bits) (hA : l < w.arith) :
    fieldMask w (l : Int) = some (2 ^ l - 1) := by
  unfold fieldMask
  rw [shl_unsigned hA]
  have hpow : 2 ^ l < 2 ^ w.arith := Nat.pow_lt_pow_right (by decide) hA
  have hpos : 0 < 2 ^ l := Nat.two_pow_pos l
  have h1 : (1 <<< l) % 2 ^ w.arith = 2 ^ l := by
    rw [Nat.one_shiftLeft, Nat.mod_eq_of_lt hpow]
  have h2 : (2 ^ l + (2 ^ w.arith - 1)) % 2 ^ w.arith = 2 ^ l - 1 := by
    have : 2 ^ l + (2 ^ w.arith - 1) = (2 ^ l - 1) + 2 ^ w.arith := by omega
    rw [this, Nat.add_mod_right, Nat.mod_eq_of_lt (by omega)]
  have h3 : (2 ^ l - 1) % 2 ^ w.bits = 2 ^ l - 1 := by
    apply Nat.mod_eq_of_lt
    have : 2 ^ l ≤ 2 ^ w.bits := Nat.pow_le_pow_right (by decide) hl
    omega
  simp [sub1, narrow, h1, h2, h3]

theorem testBit_of_lt_two_pow {x n j : Nat} (hx : x < 2 ^ n) (hj : n ≤ j) :
    x.testBit j = false :=
  Nat.testBit_lt_two_pow (Nat.lt_of_lt_of_le hx (Nat.pow_le_pow_right (by decide) hj))

/-! ## Field access on the inputs that evaluate no out-of-range shift -/

theorem get_bit_field_nat (w : Width) (reg : Nat) {s l : Nat}
    (hl : l ≤ w.bits) (hlA : l < w.arith) (hsA : s < w.arith) :
    get_bit_field w reg (s : Int) (l : Int) = some ((reg >>> s) % 2 ^ l) := by
  unfold get_bit_field
  rw [fieldMask_eq w hl hlA, shr_of_lt hsA]
  have h : ((reg >>> s) % 2 ^ l) % 2 ^ w.bits = (reg >>> s) % 2 ^ l := by
    apply Nat.mod_eq_of_lt
    have h1 : (reg >>> s) % 2 ^ l < 2 ^ l := Nat.mod_lt _ (Nat.two_pow_pos l)
    have h2 : 2 ^ l ≤ 2 ^ w.bits := Nat.pow_le_pow_right (by decide) hl
    omega
  simp [narrow, h]

theorem set_bit_field_nat (w : Width) (reg nv : Nat) {s l : Nat}
    (hsl : s + l ≤ w.bits) (hlA : l < w.arith) (hsA : s < w.arith) :
    set_bit_field w reg (s : Int) (l : Int) nv = some (writeResult w reg s l nv) := by
  have hl : l ≤ w.bits := by omega
  have hA := w.bits_le_arith
  have hprom : w.promoted = true → 2 ^ l ≤ 2 ^ (w.arith - 1) := by
    intro hp
    have h16 := w.promoted_bits hp
    have h32 := w.promoted_arith hp
    exact Nat.pow_le_pow_right (by decide) (by omega)
  have hm1 : 2 ^ l - 1 < 2 ^ l := two_pow_sub_one_lt l
  have hm2 : nv % 2 ^ l < 2 ^ l := Nat.mod_lt _ (Nat.two_pow_pos l)
  have hnv : narrow w (nv &&& (2 ^ l - 1)) = nv % 2 ^ l := by
    rw [Nat.and_pow_two_sub_one_eq_mod]
    apply Nat.mod_eq_of_lt
    have h2 : 2 ^ l ≤ 2 ^ w.bits := Nat.pow_le_pow_right (by decide) hl
    omega
  unfold set_bit_field
  rw [fieldMask_eq w hl hlA]
  simp only [Option.bind_eq_bind, Option.some_bind, Option.pure_def]
  rw [hnv]
  rw [shl_of_fits hsA (shiftLeft_lt_two_pow hm1 (by omega))
        (fun hp => Nat.lt_of_lt_of_le hm1 (hprom hp))]
  simp only [Option.some_bind]
  rw [shl_of_fits hsA (shiftLeft_lt_two_pow hm2 (by omega))
        (fun hp => Nat.lt_of_lt_of_le hm2 (hprom hp))]
  simp [writeResult]

theorem writeResult_lt (w : Width) (reg s l nv : Nat) : writeResult w reg s l nv < 2 ^ w.bits :=
  Nat.mod_lt _ (Nat.two_pow_pos _)

theorem writeResult_testBit (w : Width) {reg : Nat} (s l nv : Nat) (hreg : reg < 2 ^ w.bits)
    (hsl : s + l ≤ w.bits) (j : Nat) :
    (writeResult w reg s l nv).testBit j =
      if s ≤ j ∧ j < s + l then nv.testBit (j - s) else reg.testBit j := by
  have hA := w.bits_le_arith
  by_cases hj : j < w.bits
  · have hjA : j < w.arith := by omega
    by_cases h1 : s ≤ j
    · by_cases h2 : j < s + l
      · have h3 : j - s < l := by omega
        simp [writeResult, narrow, bnot, hj, hjA, h1, h2, h3]
      · have h3 : ¬ j - s < l := by omega
        simp [writeResult, narrow, bnot, hj, hjA, h1, h2, h3]
    · simp [writeResult, narrow, bnot, hj, hjA, h1]
  · have h0 : reg.testBit j = false := testBit_of_lt_two_pow hreg (by omega)
    have h1 : ¬ (s ≤ j ∧ j < s + l) := by omega
    simp [writeResult, narrow, hj, h0, h1]

theorem CreateMask_nat (w : Width) {s l : Nat}
    (hsl : s + l ≤ w.bits) (hlA : l < w.arith) (hsA : s < w.arith) :
    CreateMask w (l : Int) (s : Int) = some ((2 ^ l - 1) <<< s) := by
  have hl : l ≤ w.bits := by omega
  have hA := w.bits_le_arith
  have hApos : 0 < w.arith := by omega
  have hm1 : 2 ^ l - 1 < 2 ^ l := two_pow_sub_one_lt l
  have hpow : 2 ^ l < 2 ^ w.arith := Nat.pow_lt_pow_right (by decide) hlA
  have hprom : w.promoted = true → 2 ^ l < 2 ^ (w.arith - 1) := by
    intro hp
    have h16 := w.promoted_bits hp
    have h32 := w.promoted_arith hp
    exact Nat.pow_lt_pow_right (by decide) (by omega)
  have hone : shl w.arith w.promoted 1 (l : Int) = some (2 ^ l) := by
    rw [shl_of_fits hlA (by rw [Nat.one_shiftLeft]; exact hpow)
          (fun hp => by rw [w.promoted_arith hp]; decide), Nat.one_shiftLeft]
  have hsub : sub1 w.arith w.promoted (2 ^ l) = some (2 ^ l - 1) := by
    unfold sub1
    have hne : ¬ (w.promoted = true ∧ 2 ^ l = 2 ^ (w.arith - 1)) := by
      rintro ⟨hp, he⟩
      have := hprom hp
      omega
    rw [if_neg hne]
    have hpos : 0 < 2 ^ l := Nat.two_pow_pos l
    have : 2 ^ l + (2 ^ w.arith - 1) = (2 ^ l - 1) + 2 ^ w.arith := by omega
    rw [this, Nat.add_mod_right, Nat.mod_eq_of_lt (by omega)]
  have hnar : narrow w (2 ^ l - 1) = 2 ^ l - 1 := by
    apply Nat.mod_eq_of_lt
    have : 2 ^ l ≤ 2 ^ w.bits := Nat.pow_le_pow_right (by decide) hl
    omega
  have hfit : (2 ^ l - 1) <<< s < 2 ^ w.bits := shiftLeft_lt_two_pow hm1 (by omega)
  unfold CreateMask
  rw [hone]
  simp only [Option.bind_eq_bind, Option.some_bind, Option.pure_def]
  rw [hsub]
  simp only [Option.some_bind]
  rw [hnar, shl_of_fits hsA (shiftLeft_lt_two_pow hm1 (by omega))
        (fun hp => Nat.lt_trans hm1 (hprom hp))]
  simp only [Option.some_bind]
  rw [narrow, Nat.mod_eq_of_lt hfit]

theorem mask_testBit (s l i : Nat) :
    ((2 ^ l - 1) <<< s).testBit i = decide (s ≤ i ∧ i < s + l) := by
  by_cases h1 : s ≤ i
  · by_cases h2 : i < s + l
    · have h3 : i - s < l := by omega
      simp [h1, h2, h3]
    · have h3 : ¬ i - s < l := by omega
      simp [h1, h2, h3]
  · simp [h1]

/-! ## Rotation on the inputs that evaluate no out-of-range shift -/

theorem or_mod_congr_left {a a' b n : Nat} (h : a % 2 ^ n = a' % 2 ^ n) :
    (a ||| b) % 2 ^ n = (a' ||| b) % 2 ^ n := by
  apply Nat.eq_of_testBit_eq
  intro j
  have hj : (a % 2 ^ n).testBit j = (a' % 2 ^ n).testBit j := by rw [h]
  simp only [Nat.testBit_mod_two_pow] at hj
  simp only [Nat.testBit_mod_two_pow, Nat.testBit_or, Bool.and_or_distrib_left, hj]

theorem or_mod_congr_right {a b b' n : Nat} (h : b % 2 ^ n = b' % 2 ^ n) :
    (a ||| b) % 2 ^ n = (a ||| b') % 2 ^ n := by
  rw [Nat.lor_comm a b, Nat.lor_comm a b']
  exact or_mod_congr_left h

theorem shl_reg (w : Width) {reg t : Nat} (hreg : reg < 2 ^ w.bits) (ht : t ≤ w.bits)
    (htA : t < w.arith) :
    ∃ a, shl w.arith w.promoted reg (t : Int) = some a ∧
      a % 2 ^ w.bits = (reg <<< t) % 2 ^ w.bits := by
  cases hp : w.promoted with
  | true =>
    have h16 := w.promoted_bits hp
    have h32 := w.promoted_arith hp
    refine ⟨reg <<< t, ?_, rfl⟩
    apply shl_of_fits htA
    · rw [h32]; exact shiftLeft_lt_two_pow hreg (by omega)
    · intro _
      rw [h32]
      exact Nat.lt_of_lt_of_le hreg (Nat.pow_le_pow_right (by decide) (by omega))
  | false =>
    refine ⟨(reg <<< t) % 2 ^ w.arith, shl_unsigned htA, ?_⟩
    exact Nat.mod_mod_of_dvd _ (Nat.pow_dvd_pow 2 w.bits_le_arith)

theorem RotateLeft_nat (w : Width) {reg : Nat} (k : Nat) (hreg : reg < 2 ^ w.bits)
    (hsafe : k % w.bits ≠ 0 ∨ w.promoted = true) :
    RotateLeft w reg (k : Int) = some (rotl w.bits reg (k % w.bits)) := by
  have hA := w.bits_le_arith
  have hN := w.bits_pos
  have ht : k % w.bits < w.bits := Nat.mod_lt _ hN
  have hsub : ((w.bits : Int) - ((k % w.bits : Nat) : Int)) = ((w.bits - k % w.bits : Nat) : Int) := by
    omega
  have hlt : w.bits - k % w.bits < w.arith := by
    rcases hsafe with h | h
    · omega
    · have := w.promoted_bits h
      have := w.promoted_arith h
      omega
  obtain ⟨a, ha, hmod⟩ := shl_reg w hreg (Nat.le_of_lt ht) (by omega)
  unfold RotateLeft
  simp only [← Int.ofNat_tmod]
  rw [ha, hsub, shr_of_lt hlt]
  simp only [Option.bind_eq_bind, Option.some_bind, Option.pure_def, narrow, rotl]
  rw [or_mod_congr_left hmod]

theorem RotateRight_nat (w : Width) {reg : Nat} (k : Nat) (hreg : reg < 2 ^ w.bits)
    (hsafe : k % w.bits ≠ 0 ∨ w.promoted = true) :
    RotateRight w reg (k : Int) = some (rotr w.bits reg (k % w.bits)) := by
  have hA := w.bits_le_arith
  have hN := w.bits_pos
  have ht : k % w.bits < w.bits := Nat.mod_lt _ hN
  have hsub : ((w.bits : Int) - ((k % w.bits : Nat) : Int)) = ((w.bits - k % w.bits : Nat) : Int) := by
    omega
  have hlt : w.bits - k % w.bits < w.arith := by
    rcases hsafe with h | h
    · omega
    · have := w.promoted_bits h
      have := w.promoted_arith h
      omega
  obtain ⟨a, ha, hmod⟩ := shl_reg w hreg (Nat.sub_le w.bits (k % w.bits)) hlt
  unfold RotateRight
  simp only [← Int.ofNat_tmod]
  rw [shr_of_lt (by omega : k % w.bits < w.arith), hsub, ha]
  simp only [Option.bind_eq_bind, Option.some_bind, Option.pure_def, narrow, rotr]
  rw [or_mod_congr_right hmod]

theorem rotl_lt (N reg t : Nat) : rotl N reg t < 2 ^ N :=
  Nat.mod_lt _ (Nat.two_pow_pos N)

theorem rotr_lt (N reg t : Nat) : rotr N reg t < 2 ^ N :=
  Nat.mod_lt _ (Nat.two_pow_pos N)

theorem rotl_testBit (N reg t j : Nat) :
    (rotl N reg t).testBit j =
      (decide (j < N) && ((decide (t ≤ j) && reg.testBit (j - t)) || reg.testBit (N - t + j))) := by
  simp [rotl]

theorem rotr_testBit (N reg t j : Nat) :
    (rotr N reg t).testBit j =
      (decide (j < N) && (reg.testBit (t + j) || (decide (N - t ≤ j) && reg.testBit (j - (N - t))))) := by
  simp [rotr]

theorem rotl_testBit_add {N reg t i : Nat} (hreg : reg < 2 ^ N) (ht : t < N) (hi : i < N) :
    (rotl N reg t).testBit ((i + t) % N) = reg.testBit i := by
  rw [rotl_testBit]
  have hj : (i + t) % N < N := Nat.mod_lt _ (by omega)
  by_cases h : i + t < N
  · rw [Nat.mod_eq_of_lt h]
    have h0 : reg.testBit (N - t + (i + t)) = false := testBit_of_lt_two_pow hreg (by omega)
    have h1 : i + t - t = i := by omega
    simp [h, h0, h1]
  · have hm : (i + t) % N = i + t - N := by
      rw [Nat.mod_eq_sub_mod (by omega), Nat.mod_eq_of_lt (by omega)]
    rw [hm]
    have h1 : ¬ t ≤ i + t - N := by omega
    have h2 : N - t + (i + t - N) = i := by omega
    have h3 : i + t - N < N := by omega
    simp [h1, h2, h3]

theorem rotr_testBit_add {N reg t i : Nat} (hreg : reg < 2 ^ N) (ht : t < N) (hi : i < N) :
    (rotr N reg t).testBit i = reg.testBit ((i + t) % N) := by
  rw [rotr_testBit]
  by_cases h : i + t < N
  · rw [Nat.mod_eq_of_lt h]
    have h1 : ¬ N - t ≤ i := by omega
    simp [hi, h1, Nat.add_comm t i]
  · have hm : (i + t) % N = i + t - N := by
      rw [Nat.mod_eq_sub_mod (by omega), Nat.mod_eq_of_lt (by omega)]
    rw [hm]
    have h0 : reg.testBit (t + i) = false := testBit_of_lt_two_pow hreg (by omega)
    have h1 : N - t ≤ i := by omega
    have h2 : i - (N - t) = i + t - N := by omega
    simp [hi, h0, h1, h2]

theorem rotr_rotl {N reg t : Nat} (hreg : reg < 2 ^ N) (ht : t < N) :
    rotr N (rotl N reg t) t = reg := by
  apply Nat.eq_of_testBit_eq
  intro j
  by_cases hj : j < N
  · rw [rotr_testBit_add (rotl_lt N reg t) ht hj, rotl_testBit_add hreg ht hj]
  · rw [testBit_of_lt_two_pow (rotr_lt _ _ _) (by omega), testBit_of_lt_two_pow hreg (by omega)]

theorem rotl_zero {N reg : Nat} (hreg : reg < 2 ^ N) : rotl N reg 0 = reg := by
  have h : reg >>> N = 0 := by
    rw [Nat.shiftRight_eq_div_pow]
    exact Nat.div_eq_of_lt hreg
  simp [rotl, h, Nat.mod_eq_of_lt hreg]

theorem rotr_zero {N reg : Nat} (hreg : reg < 2 ^ N) : rotr N reg 0 = reg := by
  apply Nat.eq_of_testBit_eq
  intro j
  rw [rotr_testBit]
  by_cases hj : j < N
  · have h1 : ¬ N ≤ j := by omega
    simp [hj, h1]
  · simp [hj, testBit_of_lt_two_pow hreg (by omega : N ≤ j)]

/-! ## Statements over the `int` parameters of the source -/

theorem get_bit_field_value (w : Width) (reg : Nat) (start len : Int)
    (h0 : 0 ≤ start) (h1 : 0 ≤ len) (h2 : start + len ≤ w.bits)
    (hs : start < w.arith) (hl : len < w.arith) :
    get_bit_field w reg start len = some ((reg >>> start.toNat) % 2 ^ len.toNat) := by
  obtain ⟨s, rfl⟩ := Int.eq_ofNat_of_zero_le h0
  obtain ⟨l, rfl⟩ := Int.eq_ofNat_of_zero_le h1
  simp only [Int.toNat_ofNat]
  exact get_bit_field_nat w reg (by omega) (by omega) (by omega)

theorem set_bit_field_value (w : Width) (reg nv : Nat) (start len : Int)
    (h0 : 0 ≤ start) (h1 : 0 ≤ len) (h2 : start + len ≤ w.bits)
    (hs : start < w.arith) (hl : len < w.arith) :
    set_bit_field w reg start len nv = some (writeResult w reg start.toNat len.toNat nv) := by
  obtain ⟨s, rfl⟩ := Int.eq_ofNat_of_zero_le h0
  obtain ⟨l, rfl⟩ := Int.eq_ofNat_of_zero_le h1
  simp only [Int.toNat_ofNat]
  exact set_bit_field_nat w reg nv (by omega) (by omega) (by omega)

/-- Write then read returns the written value, on every valid field whose
`start_bit` and `length` are below the width of the arithmetic type. -/
theorem field_roundtrip (w : Width) (v x : Nat) (start len : Int)
    (hv : v < 2 ^ w.bits) (h0 : 0 ≤ start) (h1 : 0 ≤ len) (h2 : start + len ≤ w.bits)
    (hs : start < w.arith) (hl : len < w.arith) (hx : x < 2 ^ len.toNat) :
    ∃ r, set_bit_field w v start len x = some r ∧ r < 2 ^ w.bits ∧
      get_bit_field w r start len = some x := by
  refine ⟨_, set_bit_field_value w v x start len h0 h1 h2 hs hl, writeResult_lt _ _ _ _ _, ?_⟩
  rw [get_bit_field_value w _ start len h0 h1 h2 hs hl]
  congr 1
  apply Nat.eq_of_testBit_eq
  intro i
  have hsl : start.toNat + len.toNat ≤ w.bits := by omega
  rw [Nat.testBit_mod_two_pow, Nat.testBit_shiftRight, writeResult_testBit w _ _ x hv hsl]
  by_cases hi : i < len.toNat
  · have h3 : start.toNat ≤ start.toNat + i ∧ start.toNat + i < start.toNat + len.toNat := by
      omega
    simp [hi, h3]
  · have h3 : x.testBit i = false := testBit_of_lt_two_pow hx (by omega)
    simp [hi, h3]

/-- Shape of the forward mask, on every valid field whose `start_bit` and
`length` are below the width of the arithmetic type. -/
theorem CreateMask_shape (w : Width) (len start : Int)
    (h0 : 0 ≤ start) (h1 : 0 ≤ len) (h2 : start + len ≤ w.bits)
    (hs : start < w.arith) (hl : len < w.arith) :
    ∃ m, CreateMask w len start = some m ∧ m < 2 ^ w.bits ∧
      ∀ i : Nat, m.testBit i = decide (start ≤ (i : Int) ∧ (i : Int) < start + len) := by
  obtain ⟨s, rfl⟩ := Int.eq_ofNat_of_zero_le h0
  obtain ⟨l, rfl⟩ := Int.eq_ofNat_of_zero_le h1
  refine ⟨_, CreateMask_nat w (by omega) (by omega) (by omega), ?_, ?_⟩
  · exact shiftLeft_lt_two_pow (two_pow_sub_one_lt l) (by omega)
  · intro i
    rw [mask_testBit]
    congr 1
    apply propext
    constructor <;> intro h <;> omega

theorem RotateLeft_congr (w : Width) (v : Nat) {s t : Int}
    (h : Int.tmod s w.bits = Int.tmod t w.bits) : RotateLeft w v s = RotateLeft w v t := by
  unfold RotateLeft
  simp only [h]

theorem RotateRight_congr (w : Width) (v : Nat) {s t : Int}
    (h : Int.tmod s w.bits = Int.tmod t w.bits) : RotateRight w v s = RotateRight w v t := by
  unfold RotateRight
  simp only [h]

/-- The C++ remainder `shift % N` of a shift that is non-negative or a multiple
of `N` is the residue of `shift` in `[0, N)`. -/
theorem tmod_eq_residue (w : Width) {shift : Int} (hs : 0 ≤ shift ∨ (w.bits : Int) ∣ shift) :
    ∃ k : Nat, k < w.bits ∧ (k : Int) = shift % (w.bits : Int) ∧
      Int.tmod shift w.bits = (k : Int) := by
  have hN : (0 : Int) < (w.bits : Int) := by exact_mod_cast w.bits_pos
  have hnn : 0 ≤ shift % (w.bits : Int) := Int.emod_nonneg _ (by omega)
  have hlt : shift % (w.bits : Int) < (w.bits : Int) := Int.emod_lt_of_pos _ hN
  obtain ⟨k, hk⟩ := Int.eq_ofNat_of_zero_le hnn
  refine ⟨k, by omega, hk.symm, ?_⟩
  rcases hs with h | h
  · rw [Int.tmod_eq_emod h (by omega), hk]
  · rw [Int.tmod_eq_zero_of_dvd h, ← hk, Int.emod_eq_zero_of_dvd h]

theorem tmod_residue_self (w : Width) {k : Nat} (hk : k < w.bits) :
    Int.tmod (k : Int) w.bits = (k : Int) := by
  rw [← Int.ofNat_tmod, Nat.mod_eq_of_lt hk]

/-- Value of `RotateLeft` for a shift whose C++ remainder is non-negative, when
the remainder is not zero or the register is promoted to `int`. -/
theorem RotateLeft_value (w : Width) (v : Nat) (shift : Int) (hv : v < 2 ^ w.bits)
    (hs : 0 ≤ shift ∨ (w.bits : Int) ∣ shift)
    (hsafe : shift % (w.bits : Int) ≠ 0 ∨ w.promoted = true) :
    RotateLeft w v shift = some (rotl w.bits v (shift % (w.bits : Int)).toNat) := by
  obtain ⟨k, hk, hke, hkt⟩ := tmod_eq_residue w hs
  rw [RotateLeft_congr w v (hkt.trans (tmod_residue_self w hk).symm), ← hke, Int.toNat_ofNat]
  have hsafe' : k % w.bits ≠ 0 ∨ w.promoted = true := by
    rcases hsafe with h | h
    · left
      rw [Nat.mod_eq_of_lt hk]
      omega
    · exact Or.inr h
  rw [RotateLeft_nat w k hv hsafe', Nat.mod_eq_of_lt hk]

/-- Value of `RotateRight` for a shift whose C++ remainder is non-negative, when
the remainder is not zero or the register is promoted to `int`. -/
theorem RotateRight_value (w : Width) (v : Nat) (shift : Int) (hv : v < 2 ^ w.bits)
    (hs : 0 ≤ shift ∨ (w.bits : Int) ∣ shift)
    (hsafe : shift % (w.bits : Int) ≠ 0 ∨ w.promoted = true) :
    RotateRight w v shift = some (rotr w.bits v (shift % (w.bits : Int)).toNat) := by
  obtain ⟨k, hk, hke, hkt⟩ := tmod_eq_residue w hs
  rw [RotateRight_congr w v (hkt.trans (tmod_residue_self w hk).symm), ← hke, Int.toNat_ofNat]
  have hsafe' : k % w.bits ≠ 0 ∨ w.promoted = true := by
    rcases hsafe with h | h
    · left
      rw [Nat.mod_eq_of_lt hk]
      omega
    · exact Or.inr h
  rw [RotateRight_nat w k hv hsafe', Nat.mod_eq_of_lt hk]

theorem residue_toNat_lt (w : Width) (shift : Int) :
    (shift % (w.bits : Int)).toNat < w.bits := by
  have hN : (0 : Int) < (w.bits : Int) := by exact_mod_cast w.bits_pos
  have hnn : 0 ≤ shift % (w.bits : Int) := Int.emod_nonneg _ (by omega)
  have hlt : shift % (w.bits : Int) < (w.bits : Int) := Int.emod_lt_of_pos _ hN
  omega

/-- A negative C++ remainder makes both rotations shift by a negative amount. -/
theorem Rotate_negative_remainder (w : Width) (v : Nat) (shift : Int)
    (h : Int.tmod shift w.bits < 0) :
    RotateLeft w v shift = none ∧ RotateRight w v shift = none := by
  constructor
  · unfold RotateLeft
    simp [shl_neg _ _ _ h]
  · unfold RotateRight
    simp [shr, h]

theorem Width.arith_eq_bits_of_not_promoted (w : Width) (h : w.promoted = false) :
    w.arith = w.bits := by
  cases w <;> simp_all [Width.promoted, Width.arith, Width.bits]

/-- On `uint32_t` and `uint64_t` a remainder of zero makes both rotations shift
by the width of the type. -/
theorem Rotate_zero_remainder_unsigned (w : Width) (v : Nat) (shift : Int)
    (hw : w.promoted = false) (h : Int.tmod shift w.bits = 0) :
    RotateLeft w v shift = none ∧ RotateRight w v shift = none := by
  have hA := w.arith_eq_bits_of_not_promoted hw
  constructor
  · unfold RotateLeft
    simp only [h, Int.sub_zero]
    rw [← hA, shr_width]
    cases shl w.arith w.promoted v 0 <;> rfl
  · unfold RotateRight
    simp only [h, Int.sub_zero]
    rw [← hA, shl_width]
    cases shr w.arith v 0 <;> rfl

/-- On `uint32_t` and `uint64_t` a length equal to the width makes the inline
mask shift by the width of the type. -/
theorem fieldMask_full_width_unsigned (w : Width) (hw : w.promoted = false) :
    fieldMask w (w.bits : Int) = none := by
  have hA := w.arith_eq_bits_of_not_promoted hw
  unfold fieldMask
  rw [← hA, shl_width]
  rfl

theorem Width.promoted_of_bits_le (w : Width) (h : w.bits ≤ 16) : w.promoted = true := by
  cases w <;> simp_all [Width.promoted, Width.bits]

/-- Rotation is a circular permutation of the bits, for every reduced shift
`0 ≤ s < N` that is not zero on `uint32_t` / `uint64_t`. -/
theorem rotate_permutation (w : Width) (v : Nat) (s : Int) (hv : v < 2 ^ w.bits)
    (h0 : 0 ≤ s) (h1 : s < w.bits) (hsafe : s ≠ 0 ∨ w.bits ≤ 16) :
    ∃ l r, RotateLeft w v s = some l ∧ RotateRight w v s = some r ∧
      l < 2 ^ w.bits ∧ r < 2 ^ w.bits ∧
      ∀ i : Nat, i < w.bits →
        l.testBit ((i + s.toNat) % w.bits) = v.testBit i ∧
        r.testBit i = v.testBit ((i + s.toNat) % w.bits) := by
  have hmod : s % (w.bits : Int) = s := Int.emod_eq_of_lt h0 h1
  have hsafe' : s % (w.bits : Int) ≠ 0 ∨ w.promoted = true := by
    rcases hsafe with h | h
    · left; rw [hmod]; exact h
    · exact Or.inr (w.promoted_of_bits_le h)
  have ht : s.toNat < w.bits := by omega
  refine ⟨_, _, RotateLeft_value w v s hv (Or.inl h0) hsafe',
    RotateRight_value w v s hv (Or.inl h0) hsafe', rotl_lt _ _ _, rotr_lt _ _ _, ?_⟩
  intro i hi
  rw [hmod]
  exact ⟨rotl_testBit_add hv ht hi, rotr_testBit_add hv ht hi⟩

/-- On `uint8_t` and `uint16_t` a rotation by a multiple of `N` returns the
register: the shift by `N` of the formula is evaluated in the 32-bit `int`. -/
theorem rotate_multiple_promoted (w : Width) (v : Nat) (s : Int) (hv : v < 2 ^ w.bits)
    (hw : w.bits ≤ 16) (hs : (w.bits : Int) ∣ s) :
    RotateLeft w v s = some v ∧ RotateRight w v s = some v := by
  have hp := w.promoted_of_bits_le hw
  have hz : s % (w.bits : Int) = 0 := Int.emod_eq_zero_of_dvd hs
  constructor
  · rw [RotateLeft_value w v s hv (Or.inr hs) (Or.inr hp), hz]
    simp [rotl_zero hv]
  · rw [RotateRight_value w v s hv (Or.inr hs) (Or.inr hp), hz]
    simp [rotr_zero hv]

/-! ## The claims -/

/-- C1, field round trip, on the full-width field: the `uint32_t` and
`uint64_t` overloads of `set_bit_field` and `get_bit_field` evaluate
`1U << 32` and `1ULL << 64`, a shift by the width of the type, and have no
defined result; the `uint8_t` and `uint16_t` overloads return the written
value. -/
theorem C1_full_width_roundtrip :
    set_bit_field .w32 0 0 32 1 = none ∧ get_bit_field .w32 1 0 32 = none ∧
    set_bit_field .w64 0 0 64 1 = none ∧ get_bit_field .w64 1 0 64 = none ∧
    set_bit_field .w8 0 0 8 1 = some 1 ∧ get_bit_field .w8 1 0 8 = some 1 ∧
    set_bit_field .w16 0 0 16 1 = some 1 ∧ get_bit_field .w16 1 0 16 = some 1 := by
  decide

/-- C4, forward mask shape, on the full-width mask: `CreateMask<uint32_t>(32, 0)`
and `CreateMask<uint64_t>(64, 0)` shift `(T)1` by the width of the type and
have no defined result, as does the empty mask at `start_bit = N`; the
`uint8_t` and `uint16_t` instances give all ones.  The mask of the test,
`CreateMask<uint16_t>(5, 4)`, is `0b0000000111110000`. -/
theorem C4_mask_shape_at_width :
    CreateMask .w32 32 0 = none ∧ CreateMask .w64 64 0 = none ∧
    CreateMask .w32 0 32 = none ∧ CreateMask .w64 0 64 = none ∧
    CreateMask .w8 8 0 = some 0xFF ∧ CreateMask .w16 16 0 = some 0xFFFF ∧
    CreateMask .w16 5 4 = some 0b0000000111110000 := by
  decide

/-- C5, full-width mask: for `uint8_t` and `uint16_t` the mask of length `N`,
from `CreateMask` and inline, is `2^N - 1` and every shift is in range; for
`uint32_t` and `uint64_t` both computations shift by the width of the type
and have no defined result. -/
theorem C5_full_width_mask :
    CreateMask .w8 8 0 = some (2 ^ 8 - 1) ∧ fieldMask .w8 8 = some (2 ^ 8 - 1) ∧
    CreateMask .w16 16 0 = some (2 ^ 16 - 1) ∧ fieldMask .w16 16 = some (2 ^ 16 - 1) ∧
    CreateMask .w32 32 0 = none ∧ fieldMask .w32 32 = none ∧
    CreateMask .w64 64 0 = none ∧ fieldMask .w64 64 = none ∧
    (∀ (reg : Nat) (start : Int), get_bit_field .w32 reg start 32 = none) ∧
    (∀ (reg : Nat) (start : Int), get_bit_field .w64 reg start 64 = none) ∧
    (∀ (reg nv : Nat) (start : Int), set_bit_field .w32 reg start 32 nv = none) ∧
    (∀ (reg nv : Nat) (start : Int), set_bit_field .w64 reg start 64 nv = none) := by
  have h32 : fieldMask .w32 32 = none := by decide
  have h64 : fieldMask .w64 64 = none := by decide
  refine ⟨by decide, by decide, by decide, by decide, by decide, h32, by decide, h64,
    ?_, ?_, ?_, ?_⟩
  · intro reg start
    simp [get_bit_field, h32]
  · intro reg start
    simp [get_bit_field, h64]
  · intro reg nv start
    simp [set_bit_field, h32]
  · intro reg nv start
    simp [set_bit_field, h64]

/-- C6, read field definition, on the full-width field: the `uint32_t` and
`uint64_t` overloads of `get_bit_field` have no defined result where the claim
gives the register itself, the `uint8_t` and `uint16_t` overloads return it.
The read of the test, five bits at bit 4 of the 16-bit register, is
`0b01010`. -/
theorem C6_read_full_width :
    get_bit_field .w32 0x550000AA 0 32 = none ∧
    get_bit_field .w64 0x800000000000000F 0 64 = none ∧
    get_bit_field .w32 0x550000AA 32 0 = none ∧
    get_bit_field .w8 0xAA 0 8 = some 0xAA ∧
    get_bit_field .w16 0xD6A1 0 16 = some 0xD6A1 ∧
    get_bit_field .w16 0b1101011010100001 4 5 = some 0b01010 := by
  decide

/-- C7, rotation round trip, at the shift `-1`: `shift %= N` leaves the C++
remainder `-1`, `RotateLeft` then evaluates `reg << -1`, a shift by a negative
count, and no round trip value exists; with the residue `7` of `-1` in
`[0, 8)` the round trip returns the register. -/
theorem C7_roundtrip_negative_shift :
    Int.tmod (-1) (Width.w8.bits : Int) = -1 ∧ RotateLeft .w8 1 (-1) = none ∧
    (¬ ∃ r, RotateLeft .w8 1 (-1) = some r ∧ RotateRight .w8 r (-1) = some 1) ∧
    (RotateLeft .w8 1 7).bind (fun r => RotateRight .w8 r 7) = some 1 := by
  refine ⟨by decide, by decide, ?_, by decide⟩
  rintro ⟨r, h, _⟩
  have h' : RotateLeft .w8 1 (-1) = none := by decide
  rw [h'] at h
  exact Option.noConfusion h

/-- The round trip of the rotations in the reading of the standard, for every
shift that is non-negative or a multiple of `N` and evaluates no shift by the
width of the type. -/
theorem rotation_roundtrip_strict (w : Width) (v : Nat) (s : Int) (hv : v < 2 ^ w.bits)
    (hs : 0 ≤ s ∨ (w.bits : Int) ∣ s) (hsafe : s % (w.bits : Int) ≠ 0 ∨ w.bits ≤ 16) :
    ∃ r, RotateLeft w v s = some r ∧ r < 2 ^ w.bits ∧ RotateRight w r s = some v := by
  have hsafe' : s % (w.bits : Int) ≠ 0 ∨ w.promoted = true :=
    hsafe.imp id w.promoted_of_bits_le
  refine ⟨_, RotateLeft_value w v s hv hs hsafe', rotl_lt _ _ _, ?_⟩
  rw [RotateRight_value w _ s (rotl_lt _ _ _) hs hsafe',
    rotr_rotl hv (residue_toNat_lt w s)]

/-- C8, zero-residue rotation: on `uint32_t` and `uint64_t` a shift of `0` or
`N` makes `RotateLeft` evaluate `reg >> N` and `RotateRight` evaluate
`reg << N`, a shift by the width of the type, and no result is defined; on
`uint8_t` and `uint16_t` the same shift is evaluated in `int` and the
register is returned. -/
theorem C8_zero_residue_rotation :
    RotateLeft .w32 1 0 = none ∧ RotateRight .w32 1 0 = none ∧
    RotateLeft .w32 1 32 = none ∧ RotateRight .w32 1 32 = none ∧
    RotateLeft .w64 1 0 = none ∧ RotateRight .w64 1 0 = none ∧
    RotateLeft .w64 1 64 = none ∧ RotateRight .w64 1 64 = none ∧
    RotateLeft .w8 1 0 = some 1 ∧ RotateRight .w8 1 8 = some 1 ∧
    RotateLeft .w16 0xFFFF 16 = some 0xFFFF ∧ RotateRight .w16 0xFFFF 0 = some 0xFFFF := by
  decide

/-- C9, shift reduction, at the shift `-1`: its residue in `[0, 8)` is `7`
and `RotateLeft(1, 7)` is `128`, `RotateRight(1, 7)` is `2`, but
`shift %= N` leaves the C++ remainder `-1`, so that `RotateLeft(1, -1)` and
`RotateRight(1, -1)` shift by a negative count and have no defined result.
The shift `9`, of residue `1`, is reduced as the claim says. -/
theorem C9_reduction_negative_shift :
    (-1 : Int) % (Width.w8.bits : Int) = 7 ∧ Int.tmod (-1) (Width.w8.bits : Int) = -1 ∧
    RotateLeft .w8 1 7 = some 128 ∧ RotateLeft .w8 1 (-1) = none ∧
    RotateRight .w8 1 7 = some 2 ∧ RotateRight .w8 1 (-1) = none ∧
    RotateLeft .w8 1 9 = RotateLeft .w8 1 1 ∧ RotateLeft .w8 1 9 = some 2 := by
  decide

/-- Reduction of the shift in the reading of the standard, for every shift
that is non-negative or a multiple of `N`: the outcome is the one for the
residue in `[0, N)`, a register when no shift by the width of the type is
evaluated. -/
theorem shift_reduction_strict (w : Width) (v : Nat) (shift : Int) (hv : v < 2 ^ w.bits)
    (hs : 0 ≤ shift ∨ (w.bits : Int) ∣ shift) :
    RotateLeft w v shift = RotateLeft w v (shift % (w.bits : Int)) ∧
    RotateRight w v shift = RotateRight w v (shift % (w.bits : Int)) ∧
    (shift % (w.bits : Int) ≠ 0 ∨ w.bits ≤ 16 →
      ∃ l r, RotateLeft w v shift = some l ∧ RotateRight w v shift = some r ∧
        l < 2 ^ w.bits ∧ r < 2 ^ w.bits) := by
  obtain ⟨k, hk, hke, hkt⟩ := tmod_eq_residue w hs
  have hred : Int.tmod shift w.bits = Int.tmod (shift % (w.bits : Int)) w.bits := by
    rw [hkt, ← hke, tmod_residue_self w hk]
  refine ⟨RotateLeft_congr w v hred, RotateRight_congr w v hred, ?_⟩
  intro hsafe
  have hsafe' : shift % (w.bits : Int) ≠ 0 ∨ w.promoted = true :=
    hsafe.imp id w.promoted_of_bits_le
  exact ⟨_, _, RotateLeft_value w v shift hv hs hsafe', RotateRight_value w v shift hv hs hsafe',
    rotl_lt _ _ _, rotr_lt _ _ _⟩

/-! ## Single-bit operations -/

theorem shl_one (w : Width) {i : Nat} (hi : i < w.arith) :
    shl w.arith w.promoted 1 (i : Int) = some (2 ^ i) := by
  rw [shl_of_fits hi (by rw [Nat.one_shiftLeft]; exact Nat.pow_lt_pow_right (by decide) hi)
        (fun hp => by rw [w.promoted_arith hp]; decide), Nat.one_shiftLeft]

theorem SetRegBit_nat (w : Width) (reg : Nat) {i : Nat} (hi : i < w.arith) :
    SetRegBit w reg (i : Int) = some ((reg ||| 2 ^ i) % 2 ^ w.bits) := by
  unfold SetRegBit
  rw [shl_one w hi]
  rfl

theorem ClearRegBit_nat (w : Width) (reg : Nat) {i : Nat} (hi : i < w.arith) :
    ClearRegBit w reg (i : Int) = some ((reg &&& bnot w.arith (2 ^ i)) % 2 ^ w.bits) := by
  unfold ClearRegBit
  rw [shl_one w hi]
  rfl

theorem ToggleRegBit_nat (w : Width) (reg : Nat) {i : Nat} (hi : i < w.arith) :
    ToggleRegBit w reg (i : Int) = some ((reg ^^^ 2 ^ i) % 2 ^ w.bits) := by
  unfold ToggleRegBit
  rw [shl_one w hi]
  rfl

theorem isBitSet_nat (w : Width) (reg : Nat) {i : Nat} (hi : i < w.arith) :
    isBitSet w reg (i : Int) = some (reg.testBit i) := by
  unfold isBitSet
  rw [shr_of_lt hi]
  simp [Nat.testBit, Nat.and_comm]

theorem set_testBit (w : Width) (reg i j : Nat) :
    ((reg ||| 2 ^ i) % 2 ^ w.bits).testBit j =
      (decide (j < w.bits) && (reg.testBit j || decide (i = j))) := by
  simp [Nat.testBit_two_pow]

theorem clear_testBit (w : Width) (reg i j : Nat) :
    ((reg &&& bnot w.arith (2 ^ i)) % 2 ^ w.bits).testBit j =
      (decide (j < w.bits) && (reg.testBit j && !decide (i = j))) := by
  have hA := w.bits_le_arith
  by_cases hj : j < w.bits
  · have hjA : j < w.arith := by omega
    by_cases hij : i = j <;> simp [bnot, Nat.testBit_two_pow, hj, hjA, hij]
  · simp [hj]

theorem toggle_testBit (w : Width) (reg i j : Nat) :
    ((reg ^^^ 2 ^ i) % 2 ^ w.bits).testBit j =
      (decide (j < w.bits) && (reg.testBit j ^^ decide (i = j))) := by
  simp [Nat.testBit_two_pow]

theorem testBit_eq_false_of_ge (w : Width) {reg : Nat} (hreg : reg < 2 ^ w.bits) {j : Nat}
    (hj : ¬ j < w.bits) : reg.testBit j = false :=
  testBit_of_lt_two_pow hreg (by omega)

/-- C14, set then test and clear then test: for every index in `[0, N)`
`SetRegBit` and `ClearRegBit` return a register, `isBitSet` of the set
register at the index is `true` and of the cleared register is `false`. -/
theorem C14_set_clear_then_test (w : Width) (v : Nat) (i : Int)
    (h0 : 0 ≤ i) (h1 : i < w.bits) :
    (∃ r, SetRegBit w v i = some r ∧ r < 2 ^ w.bits ∧ isBitSet w r i = some true) ∧
    (∃ r, ClearRegBit w v i = some r ∧ r < 2 ^ w.bits ∧ isBitSet w r i = some false) := by
  have hA := w.bits_le_arith
  obtain ⟨k, rfl⟩ := Int.eq_ofNat_of_zero_le h0
  have hk : k < w.bits := by omega
  have hkA : k < w.arith := by omega
  constructor
  · refine ⟨_, SetRegBit_nat w v hkA, Nat.mod_lt _ (Nat.two_pow_pos _), ?_⟩
    rw [isBitSet_nat w _ hkA, set_testBit]
    simp [hk]
  · refine ⟨_, ClearRegBit_nat w v hkA, Nat.mod_lt _ (Nat.two_pow_pos _), ?_⟩
    rw [isBitSet_nat w _ hkA, clear_testBit]
    simp

/-- Instance of C14 on the 32-bit register of the test: bit 12 of
`SetRegBit(0x550000AA, 12)` is set. -/
theorem C14_set_clear_then_test_witness :
    ((0 : Int) ≤ 12 ∧ (12 : Int) < Width.w32.bits) ∧
    ((∃ r, SetRegBit .w32 0x550000AA 12 = some r ∧ r < 2 ^ Width.w32.bits ∧
        isBitSet .w32 r 12 = some true) ∧
      (∃ r, ClearRegBit .w32 0x550000AA 12 = some r ∧ r < 2 ^ Width.w32.bits ∧
        isBitSet .w32 r 12 = some false)) :=
  ⟨by decide, C14_set_clear_then_test .w32 0x550000AA 12 (by decide) (by decide)⟩

/-- C15, toggle is an involution: for every index in `[0, N)` `ToggleRegBit`
returns a register, and toggling that register at the same index returns the
original one. -/
theorem C15_toggle_involution (w : Width) (v : Nat) (i : Int) (hv : v < 2 ^ w.bits)
    (h0 : 0 ≤ i) (h1 : i < w.bits) :
    ∃ r, ToggleRegBit w v i = some r ∧ r < 2 ^ w.bits ∧ ToggleRegBit w r i = some v := by
  have hA := w.bits_le_arith
  obtain ⟨k, rfl⟩ := Int.eq_ofNat_of_zero_le h0
  have hkA : k < w.arith := by omega
  refine ⟨_, ToggleRegBit_nat w v hkA, Nat.mod_lt _ (Nat.two_pow_pos _), ?_⟩
  rw [ToggleRegBit_nat w _ hkA]
  congr 1
  apply Nat.eq_of_testBit_eq
  intro j
  rw [toggle_testBit, toggle_testBit]
  by_cases hj : j < w.bits
  · by_cases hkj : k = j <;> simp [hj, hkj]
  · simp [hj, testBit_eq_false_of_ge w hv hj]

/-- Instance of C15 on the 32-bit register of the test, bit 1. -/
theorem C15_toggle_involution_witness :
    (0x550000AA < 2 ^ Width.w32.bits ∧ (0 : Int) ≤ 1 ∧ (1 : Int) < Width.w32.bits) ∧
    ∃ r, ToggleRegBit .w32 0x550000AA 1 = some r ∧ r < 2 ^ Width.w32.bits ∧
      ToggleRegBit .w32 r 1 = some 0x550000AA :=
  ⟨by decide, C15_toggle_involution .w32 0x550000AA 1 (by decide) (by decide) (by decide)⟩

/-- C16, set and clear are idempotent: for every index in `[0, N)` setting
(clearing) the bit of the already set (cleared) register returns the same
register. -/
theorem C16_set_clear_idempotent (w : Width) (v : Nat) (i : Int)
    (h0 : 0 ≤ i) (h1 : i < w.bits) :
    (∃ r, SetRegBit w v i = some r ∧ SetRegBit w r i = some r) ∧
    (∃ r, ClearRegBit w v i = some r ∧ ClearRegBit w r i = some r) := by
  have hA := w.bits_le_arith
  obtain ⟨k, rfl⟩ := Int.eq_ofNat_of_zero_le h0
  have hkA : k < w.arith := by omega
  constructor
  · refine ⟨_, SetRegBit_nat w v hkA, ?_⟩
    rw [SetRegBit_nat w _ hkA]
    congr 1
    apply Nat.eq_of_testBit_eq
    intro j
    rw [set_testBit, set_testBit]
    by_cases hj : j < w.bits <;> by_cases hkj : k = j <;> simp [hj, hkj]
  · refine ⟨_, ClearRegBit_nat w v hkA, ?_⟩
    rw [ClearRegBit_nat w _ hkA]
    congr 1
    apply Nat.eq_of_testBit_eq
    intro j
    rw [clear_testBit, clear_testBit]
    by_cases hj : j < w.bits <;> by_cases hkj : k = j <;> simp [hj, hkj]

/-- Instance of C16 on the 32-bit register of the test, bit 30. -/
theorem C16_set_clear_idempotent_witness :
    ((0 : Int) ≤ 30 ∧ (30 : Int) < Width.w32.bits) ∧
    ((∃ r, SetRegBit .w32 0x550000AA 30 = some r ∧ SetRegBit .w32 r 30 = some r) ∧
      (∃ r, ClearRegBit .w32 0x550000AA 30 = some r ∧ ClearRegBit .w32 r 30 = some r)) :=
  ⟨by decide, C16_set_clear_idempotent .w32 0x550000AA 30 (by decide) (by decide)⟩

/-! ## The inverse mask -/

theorem ReverseMask_nat (w : Width) {s l : Nat}
    (hsl : s + l ≤ w.bits) (hlA : l < w.arith) (hsA : s < w.arith) :
    ReverseMask w (l : Int) (s : Int) = some (narrow w (bnot w.arith ((2 ^ l - 1) <<< s))) := by
  have hl : l ≤ w.bits := by omega
  have hA := w.bits_le_arith
  have hm1 : 2 ^ l - 1 < 2 ^ l := two_pow_sub_one_lt l
  have hprom : w.promoted = true → 2 ^ l < 2 ^ (w.arith - 1) := by
    intro hp
    have h16 := w.promoted_bits hp
    have h32 := w.promoted_arith hp
    exact Nat.pow_lt_pow_right (by decide) (by omega)
  have hsub : sub1 w.arith w.promoted (2 ^ l) = some (2 ^ l - 1) := by
    unfold sub1
    have hne : ¬ (w.promoted = true ∧ 2 ^ l = 2 ^ (w.arith - 1)) := by
      rintro ⟨hp, he⟩
      have := hprom hp
      omega
    rw [if_neg hne]
    have hpos : 0 < 2 ^ l := Nat.two_pow_pos l
    have hpow : 2 ^ l < 2 ^ w.arith := Nat.pow_lt_pow_right (by decide) hlA
    have : 2 ^ l + (2 ^ w.arith - 1) = (2 ^ l - 1) + 2 ^ w.arith := by omega
    rw [this, Nat.add_mod_right, Nat.mod_eq_of_lt (by omega)]
  have hnar : narrow w (2 ^ l - 1) = 2 ^ l - 1 := by
    apply Nat.mod_eq_of_lt
    have : 2 ^ l ≤ 2 ^ w.bits := Nat.pow_le_pow_right (by decide) hl
    omega
  unfold ReverseMask
  rw [shl_one w hlA]
  simp only [Option.bind_eq_bind, Option.some_bind, Option.pure_def]
  rw [hsub]
  simp only [Option.some_bind]
  rw [hnar, shl_of_fits hsA (shiftLeft_lt_two_pow hm1 (by omega))
        (fun hp => Nat.lt_trans hm1 (hprom hp))]
  simp only [Option.some_bind]

/-- The inverse mask is the `N`-bit complement of the forward mask, on every
valid field whose `start_bit` and `length` are below the width of the
arithmetic type. -/
theorem ReverseMask_complement (w : Width) (len start : Int)
    (h0 : 0 ≤ start) (h1 : 0 ≤ len) (h2 : start + len ≤ w.bits)
    (hs : start < w.arith) (hl : len < w.arith) :
    ∃ m r, CreateMask w len start = some m ∧ ReverseMask w len start = some r ∧
      r < 2 ^ w.bits ∧ r = (2 ^ w.bits - 1) ^^^ m ∧
      ∀ i : Nat, i < w.bits →
        r.testBit i = !decide (start ≤ (i : Int) ∧ (i : Int) < start + len) := by
  have hA := w.bits_le_arith
  obtain ⟨s, rfl⟩ := Int.eq_ofNat_of_zero_le h0
  obtain ⟨l, rfl⟩ := Int.eq_ofNat_of_zero_le h1
  have hbit : ∀ i : Nat, i < w.bits →
      (narrow w (bnot w.arith ((2 ^ l - 1) <<< s))).testBit i =
        !decide ((s : Int) ≤ (i : Int) ∧ (i : Int) < (s : Int) + (l : Int)) := by
    intro i hi
    have hiA : i < w.arith := by omega
    have hd : decide ((s : Int) ≤ (i : Int) ∧ (i : Int) < (s : Int) + (l : Int)) =
        decide (s ≤ i ∧ i < s + l) := by
      congr 1
      apply propext
      constructor <;> intro h <;> omega
    rw [hd, narrow, Nat.testBit_mod_two_pow, bnot, Nat.testBit_xor,
      Nat.testBit_two_pow_sub_one, mask_testBit]
    simp [hi, hiA]
  refine ⟨_, _, CreateMask_nat w (by omega) (by omega) (by omega),
    ReverseMask_nat w (by omega) (by omega) (by omega),
    Nat.mod_lt _ (Nat.two_pow_pos _), ?_, hbit⟩
  apply Nat.eq_of_testBit_eq
  intro i
  by_cases hi : i < w.bits
  · rw [hbit i hi, Nat.testBit_xor, Nat.testBit_two_pow_sub_one, mask_testBit]
    have hd : decide ((s : Int) ≤ (i : Int) ∧ (i : Int) < (s : Int) + (l : Int)) =
        decide (s ≤ i ∧ i < s + l) := by
      congr 1
      apply propext
      constructor <;> intro h <;> omega
    rw [hd]
    simp [hi]
  · have hm : ((2 ^ l - 1) <<< s).testBit i = false := by
      rw [mask_testBit]
      simp
      omega
    rw [narrow, Nat.testBit_mod_two_pow, Nat.testBit_xor, Nat.testBit_two_pow_sub_one, hm]
    simp [hi]

/-- C11, inverse mask, on the full-width field: `ReverseMask<uint32_t>(32, 0)`
and `ReverseMask<uint64_t>(64, 0)` shift `(T)1` by the width of the type and
have no defined result, as does the empty field at `start_bit = N`; the
`uint8_t` and `uint16_t` instances give the complement `0` of the full mask.
The masks of the test are `ReverseMask<uint8_t>(3, 5) = 0b00011111` and
`ReverseMask<uint64_t>(1, 63) = 0x7FFFFFFFFFFFFFFF`. -/
theorem C11_inverse_mask_at_width :
    ReverseMask .w32 32 0 = none ∧ ReverseMask .w64 64 0 = none ∧
    ReverseMask .w32 0 32 = none ∧ ReverseMask .w64 0 64 = none ∧
    ReverseMask .w8 8 0 = some 0 ∧ ReverseMask .w16 16 0 = some 0 ∧
    ReverseMask .w8 3 5 = some 0b00011111 ∧
    ReverseMask .w64 1 63 = some 0x7FFFFFFFFFFFFFFF := by
  decide

/-- The inverse mask and the complemented forward mask have the same outcome
on every input. -/
theorem ReverseMask_eq_map_CreateMask (w : Width) (len start : Int) :
    ReverseMask w len start =
      (CreateMask w len start).map (fun m => (2 ^ w.bits - 1) ^^^ m) := by
  have hA := w.bits_le_arith
  unfold ReverseMask CreateMask
  cases shl w.arith w.promoted 1 len with
  | none => rfl
  | some one =>
    simp only [Option.bind_eq_bind, Option.some_bind, Option.pure_def]
    cases sub1 w.arith w.promoted one with
    | none => rfl
    | some d =>
      simp only [Option.some_bind]
      cases shl w.arith w.promoted (narrow w d) start with
      | none => rfl
      | some r =>
        simp only [Option.some_bind, Option.map_some']
        congr 1
        apply Nat.eq_of_testBit_eq
        intro i
        by_cases hi : i < w.bits
        · have hiA : i < w.arith := by omega
          simp [narrow, bnot, hi, hiA]
        · simp [narrow, hi]

/-! ## Unvalidated parameters -/

theorem single_bit_above_width (w : Width) {reg : Nat} (hreg : reg < 2 ^ w.bits) {i : Nat}
    (hN : w.bits ≤ i) (hA : i < w.arith) :
    SetRegBit w reg (i : Int) = some reg ∧ ClearRegBit w reg (i : Int) = some reg ∧
    ToggleRegBit w reg (i : Int) = some reg ∧ isBitSet w reg (i : Int) = some false := by
  refine ⟨?_, ?_, ?_, ?_⟩
  · rw [SetRegBit_nat w reg hA]
    congr 1
    apply Nat.eq_of_testBit_eq
    intro j
    rw [set_testBit]
    by_cases hj : j < w.bits
    · have hij : i ≠ j := by omega
      simp [hj, hij]
    · simp [hj, testBit_eq_false_of_ge w hreg hj]
  · rw [ClearRegBit_nat w reg hA]
    congr 1
    apply Nat.eq_of_testBit_eq
    intro j
    rw [clear_testBit]
    by_cases hj : j < w.bits
    · have hij : i ≠ j := by omega
      simp [hj, hij]
    · simp [hj, testBit_eq_false_of_ge w hreg hj]
  · rw [ToggleRegBit_nat w reg hA]
    congr 1
    apply Nat.eq_of_testBit_eq
    intro j
    rw [toggle_testBit]
    by_cases hj : j < w.bits
    · have hij : i ≠ j := by omega
      simp [hj, hij]
    · simp [hj, testBit_eq_false_of_ge w hreg hj]
  · rw [isBitSet_nat w reg hA, testBit_of_lt_two_pow hreg hN]

theorem single_bit_shift_out_of_range (w : Width) (reg : Nat) {i : Int}
    (h : i < 0 ∨ (w.arith : Int) ≤ i) :
    SetRegBit w reg i = none ∧ ClearRegBit w reg i = none ∧
    ToggleRegBit w reg i = none ∧ isBitSet w reg i = none := by
  have hshl : shl w.arith w.promoted 1 i = none := by
    unfold shl
    rw [if_pos h]
  have hshr : shr w.arith reg i = none := by
    unfold shr
    rw [if_pos h]
  refine ⟨?_, ?_, ?_, ?_⟩
  · unfold SetRegBit; rw [hshl]; rfl
  · unfold ClearRegBit; rw [hshl]; rfl
  · unfold ToggleRegBit; rw [hshl]; rfl
  · unfold isBitSet; rw [hshr]; rfl

/-- C12 as stated fails: with the index `8`, outside `[0, 8)`, the `uint8_t`
overloads return the register unchanged and `false`; no error arises. -/
theorem C12_index_not_rejected_counterexample :
    SetRegBit .w8 0xAA 8 = some 0xAA ∧ ClearRegBit .w8 0xAA 8 = some 0xAA ∧
    ToggleRegBit .w8 0xAA 8 = some 0xAA ∧ isBitSet .w8 0xAA 8 = some false := by
  decide

/-- C12, out-of-range index, amended: the single-bit operations do not
validate the index.  An out-of-range index that is non-negative and below the
width of the arithmetic type (only possible for `uint8_t` and `uint16_t`)
makes `SetRegBit`, `ClearRegBit` and `ToggleRegBit` return the register
unchanged and `isBitSet` return `false`; a negative index or one not below
that width makes the shift undefined. -/
theorem C12_index_not_validated (w : Width) (reg : Nat) (index : Int)
    (hreg : reg < 2 ^ w.bits) (hout : index < 0 ∨ (w.bits : Int) ≤ index) :
    (0 ≤ index → index < w.arith →
      SetRegBit w reg index = some reg ∧ ClearRegBit w reg index = some reg ∧
      ToggleRegBit w reg index = some reg ∧ isBitSet w reg index = some false) ∧
    (index < 0 ∨ (w.arith : Int) ≤ index →
      SetRegBit w reg index = none ∧ ClearRegBit w reg index = none ∧
      ToggleRegBit w reg index = none ∧ isBitSet w reg index = none) := by
  constructor
  · intro h0 hA
    obtain ⟨i, rfl⟩ := Int.eq_ofNat_of_zero_le h0
    exact single_bit_above_width w hreg (by omega) (by omega)
  · intro h
    exact single_bit_shift_out_of_range w reg h

/-- Instance of C12 on an 8-bit register with index 8. -/
theorem C12_index_not_validated_witness :
    (0xAA < 2 ^ Width.w8.bits ∧ ((8 : Int) < 0 ∨ (Width.w8.bits : Int) ≤ 8)) ∧
    (((0 : Int) ≤ 8 → (8 : Int) < Width.w8.arith →
      SetRegBit .w8 0xAA 8 = some 0xAA ∧ ClearRegBit .w8 0xAA 8 = some 0xAA ∧
      ToggleRegBit .w8 0xAA 8 = some 0xAA ∧ isBitSet .w8 0xAA 8 = some false) ∧
    ((8 : Int) < 0 ∨ (Width.w8.arith : Int) ≤ 8 →
      SetRegBit .w8 0xAA 8 = none ∧ ClearRegBit .w8 0xAA 8 = none ∧
      ToggleRegBit .w8 0xAA 8 = none ∧ isBitSet .w8 0xAA 8 = none)) :=
  ⟨⟨by decide, Or.inr (by decide)⟩,
    C12_index_not_validated .w8 0xAA 8 (by decide) (Or.inr (by decide))⟩

theorem fieldMask_any (w : Width) {l : Nat} (hlA : l < w.arith) :
    fieldMask w (l : Int) = some (2 ^ (min l w.bits) - 1) := by
  unfold fieldMask
  rw [shl_unsigned hlA]
  have hpow : 2 ^ l < 2 ^ w.arith := Nat.pow_lt_pow_right (by decide) hlA
  have hpos : 0 < 2 ^ l := Nat.two_pow_pos l
  have h1 : (1 <<< l) % 2 ^ w.arith = 2 ^ l := by
    rw [Nat.one_shiftLeft, Nat.mod_eq_of_lt hpow]
  have h2 : (2 ^ l + (2 ^ w.arith - 1)) % 2 ^ w.arith = 2 ^ l - 1 := by
    have : 2 ^ l + (2 ^ w.arith - 1) = (2 ^ l - 1) + 2 ^ w.arith := by omega
    rw [this, Nat.add_mod_right, Nat.mod_eq_of_lt (by omega)]
  have h3 : (2 ^ l - 1) % 2 ^ w.bits = 2 ^ (min l w.bits) - 1 := by
    apply Nat.eq_of_testBit_eq
    intro i
    simp only [Nat.testBit_mod_two_pow, Nat.testBit_two_pow_sub_one]
    by_cases hi : i < w.bits <;> by_cases hil : i < l <;> simp [hi, hil]
  simp [sub1, narrow, h1, h2, h3]

theorem shl_pattern (w : Width) {x s : Nat} (hs : s < w.arith)
    (hfit : w.promoted = true → x <<< s < 2 ^ 32 ∧ x < 2 ^ 31) :
    shl w.arith w.promoted x (s : Int) = some ((x <<< s) % 2 ^ w.arith) := by
  cases hp : w.promoted with
  | true =>
    have h32 := w.promoted_arith hp
    obtain ⟨h1, h2⟩ := hfit hp
    have hf : x <<< s < 2 ^ w.arith := by rw [h32]; exact h1
    rw [shl_of_fits hs hf (fun _ => by rw [h32]; exact h2), Nat.mod_eq_of_lt hf]
  | false => exact shl_unsigned hs

theorem get_bit_field_any (w : Width) {reg : Nat} (hreg : reg < 2 ^ w.bits) {s l : Nat}
    (hsA : s < w.arith) (hlA : l < w.arith) :
    get_bit_field w reg (s : Int) (l : Int) = some ((reg >>> s) % 2 ^ l) := by
  unfold get_bit_field
  rw [fieldMask_any w hlA, shr_of_lt hsA]
  simp only [Option.bind_eq_bind, Option.some_bind, Option.pure_def, narrow]
  congr 1
  apply Nat.eq_of_testBit_eq
  intro i
  simp only [Nat.testBit_mod_two_pow, Nat.testBit_and, Nat.testBit_shiftRight,
    Nat.testBit_two_pow_sub_one]
  by_cases hi : i < w.bits
  · by_cases hil : i < l <;> simp [hi, hil]
  · have h0 : reg.testBit (s + i) = false := testBit_of_lt_two_pow hreg (by omega)
    simp [hi, h0]

theorem set_bit_field_any (w : Width) {reg : Nat} (nv : Nat) (hreg : reg < 2 ^ w.bits)
    {s l : Nat} (hsA : s < w.arith) (hlA : l < w.arith)
    (hfit : w.bits ≤ 16 → s + min l w.bits ≤ 32) :
    ∃ r, set_bit_field w reg (s : Int) (l : Int) nv = some r ∧ r < 2 ^ w.bits ∧
      ∀ j : Nat, r.testBit j =
        if s ≤ j ∧ j < s + l ∧ j < w.bits then nv.testBit (j - s) else reg.testBit j := by
  have hA := w.bits_le_arith
  have hmin : min l w.bits ≤ w.bits := Nat.min_le_right _ _
  have hm1 : 2 ^ (min l w.bits) - 1 < 2 ^ (min l w.bits) := two_pow_sub_one_lt _
  have hm2 : nv % 2 ^ (min l w.bits) < 2 ^ (min l w.bits) := Nat.mod_lt _ (Nat.two_pow_pos _)
  have hnv : narrow w (nv &&& (2 ^ (min l w.bits) - 1)) = nv % 2 ^ (min l w.bits) := by
    rw [Nat.and_pow_two_sub_one_eq_mod]
    apply Nat.mod_eq_of_lt
    have h2 : 2 ^ (min l w.bits) ≤ 2 ^ w.bits := Nat.pow_le_pow_right (by decide) hmin
    omega
  have hfits : ∀ x, x < 2 ^ (min l w.bits) →
      w.promoted = true → x <<< s < 2 ^ 32 ∧ x < 2 ^ 31 := by
    intro x hx hp
    have h16 := w.promoted_bits hp
    refine ⟨shiftLeft_lt_two_pow hx (by have := hfit h16; omega), ?_⟩
    exact Nat.lt_of_lt_of_le hx (Nat.pow_le_pow_right (by decide) (by omega))
  unfold set_bit_field
  rw [fieldMask_any w hlA]
  simp only [Option.bind_eq_bind, Option.some_bind, Option.pure_def]
  rw [hnv, shl_pattern w hsA (hfits _ hm1)]
  simp only [Option.some_bind]
  rw [shl_pattern w hsA (hfits _ hm2)]
  simp only [Option.some_bind]
  refine ⟨_, rfl, Nat.mod_lt _ (Nat.two_pow_pos _), ?_⟩
  intro j
  by_cases hj : j < w.bits
  · have hjA : j < w.arith := by omega
    by_cases h1 : s ≤ j
    · by_cases h2 : j < s + l
      · have h3 : j - s < l := by omega
        have h4 : j - s < w.bits := by omega
        simp [narrow, bnot, hj, hjA, h1, h2, h3, h4]
      · have h3 : ¬ j - s < l := by omega
        simp [narrow, bnot, hj, hjA, h1, h2, h3]
    · simp [narrow, bnot, hj, hjA, h1]
  · have h0 : reg.testBit j = false := testBit_of_lt_two_pow hreg (by omega)
    simp [narrow, hj, h0]

theorem field_shift_out_of_range (w : Width) (reg nv : Nat) {start len : Int}
    (h : start < 0 ∨ len < 0 ∨ (w.arith : Int) ≤ start ∨ (w.arith : Int) ≤ len) :
    get_bit_field w reg start len = none ∧ set_bit_field w reg start len nv = none := by
  by_cases hl : len < 0 ∨ (w.arith : Int) ≤ len
  · have hm : fieldMask w len = none := by
      unfold fieldMask shl
      rw [if_pos hl]
      rfl
    constructor
    · unfold get_bit_field; rw [hm]; rfl
    · unfold set_bit_field; rw [hm]; rfl
  · have hs : start < 0 ∨ (w.arith : Int) ≤ start := by omega
    constructor
    · unfold get_bit_field
      cases fieldMask w len with
      | none => rfl
      | some m =>
        simp only [Option.bind_eq_bind, Option.some_bind, shr, if_pos hs]
        rfl
    · unfold set_bit_field
      cases fieldMask w len with
      | none => rfl
      | some m =>
        simp only [Option.bind_eq_bind, Option.some_bind, shl, if_pos hs]
        rfl

/-- C13 as stated fails: with `start_bit = 4`, `length = 8` on a `uint8_t`
register (`start_bit + length = 12 > 8`) `get_bit_field` returns the four bits
above bit 4 and `set_bit_field` returns the register with those four bits
overwritten; no error arises. -/
theorem C13_descriptor_not_rejected_counterexample :
    get_bit_field .w8 0xAA 4 8 = some 0x0A ∧ set_bit_field .w8 0xAA 4 8 0xFF = some 0xFA := by
  decide

/-- C13, invalid field descriptor, amended: the field functions do not
validate the descriptor.  Whenever `start_bit` and `length` are non-negative
and below the width of the arithmetic type, `get_bit_field` returns
`(reg >> start_bit) mod 2^length` (bits at or above `N` read as zero) and
`set_bit_field`, when for `uint8_t`/`uint16_t` the shifted mask fits 32
bits, returns the register with the part of the field below bit `N`
overwritten; a negative `start_bit` or `length`, or an invalid descriptor
with one of them not below that width, makes a shift undefined. -/
theorem C13_descriptor_not_validated (w : Width) (reg nv : Nat) (start len : Int)
    (hreg : reg < 2 ^ w.bits) :
    (0 ≤ start → start < w.arith → 0 ≤ len → len < w.arith →
      get_bit_field w reg start len = some ((reg >>> start.toNat) % 2 ^ len.toNat) ∧
      ((w.bits ≤ 16 → start + min len (w.bits : Int) ≤ 32) →
        ∃ r, set_bit_field w reg start len nv = some r ∧ r < 2 ^ w.bits ∧
          ∀ j : Nat, r.testBit j =
            if start ≤ (j : Int) ∧ (j : Int) < start + len ∧ j < w.bits
            then nv.testBit (j - start.toNat) else reg.testBit j)) ∧
    (start < 0 ∨ len < 0 ∨
        (((w.arith : Int) ≤ start ∨ (w.arith : Int) ≤ len) ∧ (w.bits : Int) < start + len) →
      get_bit_field w reg start len = none ∧ set_bit_field w reg start len nv = none) := by
  constructor
  · intro h0 hsA h1 hlA
    obtain ⟨s, rfl⟩ := Int.eq_ofNat_of_zero_le h0
    obtain ⟨l, rfl⟩ := Int.eq_ofNat_of_zero_le h1
    simp only [Int.toNat_ofNat]
    refine ⟨get_bit_field_any w hreg (by omega) (by omega), ?_⟩
    intro hfit
    obtain ⟨r, hr, hlt, hbits⟩ := set_bit_field_any w nv hreg (s := s) (l := l)
      (by omega) (by omega) (by intro h16; have := hfit h16; omega)
    refine ⟨r, hr, hlt, ?_⟩
    intro j
    rw [hbits j]
    by_cases hc : s ≤ j ∧ j < s + l ∧ j < w.bits
    · have hc' : (s : Int) ≤ (j : Int) ∧ (j : Int) < (s : Int) + (l : Int) ∧ j < w.bits := by
        omega
      rw [if_pos hc, if_pos hc']
    · have hc' : ¬ ((s : Int) ≤ (j : Int) ∧ (j : Int) < (s : Int) + (l : Int) ∧ j < w.bits) := by
        omega
      rw [if_neg hc, if_neg hc']
  · intro h
    apply field_shift_out_of_range
    omega

/-- Instance of C13 on an 8-bit register with the descriptor `(4, 8)`. -/
theorem C13_descriptor_not_validated_witness :
    (0xAA < 2 ^ Width.w8.bits) ∧
    (((0 : Int) ≤ 4 → (4 : Int) < Width.w8.arith → (0 : Int) ≤ 8 → (8 : Int) < Width.w8.arith →
      get_bit_field .w8 0xAA 4 8 = some ((0xAA >>> (4 : Int).toNat) % 2 ^ (8 : Int).toNat) ∧
      ((Width.w8.bits ≤ 16 → (4 : Int) + min 8 (Width.w8.bits : Int) ≤ 32) →
        ∃ r, set_bit_field .w8 0xAA 4 8 0xFF = some r ∧ r < 2 ^ Width.w8.bits ∧
          ∀ j : Nat, r.testBit j =
            if (4 : Int) ≤ (j : Int) ∧ (j : Int) < (4 : Int) + 8 ∧ j < Width.w8.bits
            then (0xFF : Nat).testBit (j - (4 : Int).toNat) else (0xAA : Nat).testBit j)) ∧
    ((4 : Int) < 0 ∨ (8 : Int) < 0 ∨
        (((Width.w8.arith : Int) ≤ 4 ∨ (Width.w8.arith : Int) ≤ 8) ∧
          (Width.w8.bits : Int) < 4 + 8) →
      get_bit_field .w8 0xAA 4 8 = none ∧ set_bit_field .w8 0xAA 4 8 0xFF = none)) :=
  ⟨by decide, C13_descriptor_not_validated .w8 0xAA 0xFF 4 8 (by decide)⟩

/-! ## The scanning loops -/

theorem and_one_ne_zero_iff (reg : Nat) : reg &&& 1 ≠ 0 ↔ reg.testBit 0 = true := by
  rw [Nat.and_one_is_mod, Nat.testBit_zero]
  simp

theorem countP_testBit_succ (n v : Nat) :
    (List.range (n + 1)).countP (fun i => v.testBit i) =
      (if v.testBit 0 then 1 else 0) + (List.range n).countP (fun i => (v >>> 1).testBit i) := by
  rw [List.range_succ_eq_map, List.countP_cons, List.countP_map, Nat.add_comm]
  congr 1
  apply List.countP_congr
  intro i _
  simp [Nat.testBit_shiftRight, Nat.add_comm]

theorem countP_testBit_zero (n : Nat) :
    (List.range n).countP (fun i => (0 : Nat).testBit i) = 0 := by
  simp

theorem shiftRight_one_lt {reg m : Nat} (h : reg < 2 ^ (m + 1)) : reg >>> 1 < 2 ^ m := by
  rw [Nat.shiftRight_eq_div_pow, Nat.pow_one]
  rw [Nat.pow_succ] at h
  omega

theorem narrow_shiftRight_one (w : Width) {reg : Nat} (h : reg < 2 ^ w.bits) :
    narrow w (reg >>> 1) = reg >>> 1 := by
  apply Nat.mod_eq_of_lt
  have : reg >>> 1 ≤ reg := by
    rw [Nat.shiftRight_eq_div_pow]
    exact Nat.div_le_self _ _
  omega

theorem count_loop_eq (w : Width) :
    ∀ (fuel n reg c : Nat), n ≤ w.bits → reg < 2 ^ n → n ≤ fuel →
      count_loop w fuel reg c = some (c + (List.range n).countP (fun i => reg.testBit i)) := by
  intro fuel
  induction fuel with
  | zero =>
    intro n reg c _ hreg hn
    have hn0 : n = 0 := by omega
    subst hn0
    have h0 : reg = 0 := by simpa using hreg
    subst h0
    simp [count_loop]
  | succ fuel ih =>
    intro n reg c hnN hreg hn
    by_cases h0 : reg = 0
    · subst h0
      simp [count_loop]
    · cases n with
      | zero =>
        exfalso
        have : reg < 1 := by simpa using hreg
        omega
      | succ m =>
        have hregN : reg < 2 ^ w.bits :=
          Nat.lt_of_lt_of_le hreg (Nat.pow_le_pow_right (by decide) hnN)
        rw [count_loop, if_neg h0, narrow_shiftRight_one w hregN,
          ih m (reg >>> 1) _ (by omega) (shiftRight_one_lt hreg) (by omega),
          countP_testBit_succ]
        by_cases hb : reg.testBit 0 = true
        · have hb' : reg &&& 1 ≠ 0 := (and_one_ne_zero_iff reg).2 hb
          simp only [if_pos hb', if_pos hb]
          congr 1
          omega
        · have hb' : ¬ reg &&& 1 ≠ 0 := fun h => hb ((and_one_ne_zero_iff reg).1 h)
          simp only [if_neg hb', if_neg hb]
          congr 1
          omega

theorem first_set_loop_spec (w : Width) :
    ∀ (fuel n reg c : Nat), n ≤ w.bits → reg ≠ 0 → reg < 2 ^ n → n ≤ fuel + 1 →
      ∃ r, first_set_loop w fuel reg c = some (c + r) ∧ r < n ∧ reg.testBit r = true ∧
        ∀ j, j < r → reg.testBit j = false := by
  intro fuel
  induction fuel with
  | zero =>
    intro n reg c _ h0 hreg hn
    have hn1 : n = 1 := by
      cases n with
      | zero =>
        exfalso
        have : reg < 1 := by simpa using hreg
        omega
      | succ m => omega
    subst hn1
    have h1 : reg = 1 := by
      have : reg < 2 := by simpa using hreg
      omega
    subst h1
    exact ⟨0, by simp [first_set_loop], by decide, by decide, fun j hj => by omega⟩
  | succ fuel ih =>
    intro n reg c hnN h0 hreg hn
    have hnpos : 0 < n := by
      cases n with
      | zero =>
        exfalso
        have : reg < 1 := by simpa using hreg
        omega
      | succ m => omega
    by_cases hb : reg.testBit 0 = true
    · have hb' : reg &&& 1 ≠ 0 := (and_one_ne_zero_iff reg).2 hb
      exact ⟨0, by rw [first_set_loop, if_pos hb']; rfl, hnpos, hb, fun j hj => by omega⟩
    · have hb' : ¬ reg &&& 1 ≠ 0 := fun h => hb ((and_one_ne_zero_iff reg).1 h)
      have heven : reg % 2 = 0 := by
        have := Nat.testBit_zero reg
        simp [this] at hb
        omega
      obtain ⟨m, rfl⟩ : ∃ m, n = m + 1 := ⟨n - 1, by omega⟩
      have hregN : reg < 2 ^ w.bits :=
        Nat.lt_of_lt_of_le hreg (Nat.pow_le_pow_right (by decide) hnN)
      have hne : reg >>> 1 ≠ 0 := by
        rw [Nat.shiftRight_eq_div_pow, Nat.pow_one]
        omega
      obtain ⟨r, hr, hrm, hbit, hlow⟩ :=
        ih m (reg >>> 1) (c + 1) (by omega) hne (shiftRight_one_lt hreg) (by omega)
      refine ⟨r + 1, ?_, by omega, ?_, ?_⟩
      · rw [first_set_loop, if_neg hb', narrow_shiftRight_one w hregN, hr]
        congr 1
        omega
      · rw [Nat.testBit_shiftRight] at hbit
        rw [Nat.add_comm]
        exact hbit
      · intro j hj
        cases j with
        | zero => simpa using hb
        | succ k =>
          have := hlow k (by omega)
          rw [Nat.testBit_shiftRight, Nat.add_comm] at this
          exact this

theorem count_set_bits_eq (w : Width) (reg fuel : Nat) (hreg : reg < 2 ^ w.bits)
    (hfuel : w.bits ≤ fuel) :
    count_set_bits w fuel reg = some ((List.range w.bits).countP (fun i => reg.testBit i)) := by
  unfold count_set_bits
  rw [count_loop_eq w fuel w.bits reg 0 (Nat.le_refl _) hreg hfuel, Nat.zero_add]

/-- C17, population count: with fuel for `N` executions of the loop body
`count_set_bits` returns the number of indices `i < N` at which bit `i` of
the register is set, a number between `0` and `N`. -/
theorem C17_popcount (w : Width) (reg fuel : Nat) (hreg : reg < 2 ^ w.bits)
    (hfuel : w.bits ≤ fuel) :
    count_set_bits w fuel reg = some ((List.range w.bits).countP (fun i => reg.testBit i)) ∧
    (List.range w.bits).countP (fun i => reg.testBit i) ≤ w.bits := by
  constructor
  · unfold count_set_bits
    rw [count_loop_eq w fuel w.bits reg 0 (Nat.le_refl _) hreg hfuel, Nat.zero_add]
  · have h := List.countP_le_length (fun i => reg.testBit i) (l := List.range w.bits)
    rwa [List.length_range] at h

/-- Instance of C17 on the 64-bit register of the test, whose count is 5. -/
theorem C17_popcount_witness :
    (0x800000000000000F < 2 ^ Width.w64.bits ∧ Width.w64.bits ≤ 64) ∧
    (count_set_bits .w64 64 0x800000000000000F =
        some ((List.range Width.w64.bits).countP
          (fun i => (0x800000000000000F : Nat).testBit i)) ∧
      (List.range Width.w64.bits).countP
        (fun i => (0x800000000000000F : Nat).testBit i) ≤ Width.w64.bits) ∧
    count_set_bits .w64 64 0x800000000000000F = some 5 :=
  ⟨by decide, C17_popcount .w64 0x800000000000000F 64 (by decide) (by decide), by decide⟩

/-- C18, population count of a value and of its complement: with fuel for
`N` executions of the loop body the counts of `v` and of `~v`, narrowed to
the `N` bits of the register, add up to `N`. -/
theorem C18_popcount_complement (w : Width) (v fuel : Nat) (hv : v < 2 ^ w.bits)
    (hfuel : w.bits ≤ fuel) :
    ∃ a b, count_set_bits w fuel v = some a ∧
      count_set_bits w fuel (narrow w (bnot w.arith v)) = some b ∧ a + b = w.bits := by
  have hA := w.bits_le_arith
  have hc : narrow w (bnot w.arith v) < 2 ^ w.bits := Nat.mod_lt _ (Nat.two_pow_pos _)
  refine ⟨_, _, (count_set_bits_eq w v fuel hv hfuel), (count_set_bits_eq w _ fuel hc hfuel), ?_⟩
  have hcongr : (List.range w.bits).countP (fun i => (narrow w (bnot w.arith v)).testBit i) =
      (List.range w.bits).countP (fun i => ¬ (v.testBit i = true)) := by
    apply List.countP_congr
    intro i hi
    have hi' : i < w.bits := List.mem_range.1 hi
    have hiA : i < w.arith := by omega
    simp [narrow, bnot, hi', hiA]
  rw [hcongr]
  have h := List.length_eq_countP_add_countP (p := fun i => v.testBit i) (List.range w.bits)
  rw [List.length_range] at h
  simpa using h.symm

/-- Instance of C18 on the 64-bit register of the test. -/
theorem C18_popcount_complement_witness :
    (0x800000000000000F < 2 ^ Width.w64.bits ∧ Width.w64.bits ≤ 64) ∧
    ∃ a b, count_set_bits .w64 64 0x800000000000000F = some a ∧
      count_set_bits .w64 64 (narrow .w64 (bnot Width.w64.arith 0x800000000000000F)) = some b ∧
      a + b = Width.w64.bits :=
  ⟨by decide, C18_popcount_complement .w64 0x800000000000000F 64 (by decide) (by decide)⟩

/-- C19, first set bit: `find_first_set_bit(0)` is `-1` with any fuel, and for
a non-zero register, with fuel for `N - 1` executions of the loop body, the
result `r` satisfies `0 ≤ r ≤ N - 1`, bit `r` is set and every lower bit is
clear. -/
theorem C19_first_set_bit (w : Width) (v fuel : Nat) (hv : v < 2 ^ w.bits)
    (hfuel : w.bits - 1 ≤ fuel) :
    (∀ f : Nat, find_first_set_bit w f 0 = some (-1)) ∧
    (v ≠ 0 → ∃ r : Nat, find_first_set_bit w fuel v = some (r : Int) ∧ r ≤ w.bits - 1 ∧
      isBitSet w v r = some true ∧ ∀ j : Nat, j < r → isBitSet w v j = some false) := by
  have hA := w.bits_le_arith
  constructor
  · intro f
    simp [find_first_set_bit]
  · intro h0
    obtain ⟨r, hr, hrN, hbit, hlow⟩ :=
      first_set_loop_spec w fuel w.bits v 0 (Nat.le_refl _) h0 hv (by omega)
    refine ⟨r, ?_, by omega, ?_, ?_⟩
    · rw [find_first_set_bit, if_neg h0, hr, Nat.zero_add]
      rfl
    · rw [isBitSet_nat w v (by omega), hbit]
    · intro j hj
      rw [isBitSet_nat w v (by omega), hlow j hj]

/-- Instance of C19 on a 32-bit register whose only set bit is bit 31. -/
theorem C19_first_set_bit_witness :
    (0x80000000 < 2 ^ Width.w32.bits ∧ Width.w32.bits - 1 ≤ 31) ∧
    ((∀ f : Nat, find_first_set_bit .w32 f 0 = some (-1)) ∧
      ((0x80000000 : Nat) ≠ 0 → ∃ r : Nat,
        find_first_set_bit .w32 31 0x80000000 = some (r : Int) ∧ r ≤ Width.w32.bits - 1 ∧
        isBitSet .w32 0x80000000 r = some true ∧
        ∀ j : Nat, j < r → isBitSet .w32 0x80000000 j = some false)) :=
  ⟨by decide, C19_first_set_bit .w32 0x80000000 31 (by decide) (by decide)⟩

/-! ## Power of two -/

theorem and_pred_eq_zero_iff : ∀ n : Nat, 0 < n → (n &&& (n - 1) = 0 ↔ ∃ k, n = 2 ^ k) := by
  intro n
  induction n using Nat.strongRecOn with
  | ind n ih =>
    intro hn
    have hdiv : (n &&& (n - 1)) / 2 = n / 2 &&& (n - 1) / 2 := Nat.and_div_two
    by_cases hodd : n % 2 = 1
    · have h1 : (n - 1) / 2 = n / 2 := by omega
      rw [h1, Nat.and_self] at hdiv
      constructor
      · intro h
        rw [h] at hdiv
        refine ⟨0, ?_⟩
        simp at hdiv
        omega
      · rintro ⟨k, hk⟩
        cases k with
        | zero =>
          subst hk
          decide
        | succ k =>
          exfalso
          rw [hk, Nat.pow_succ] at hodd
          omega
    · have heven : n % 2 = 0 := by omega
      have h1 : (n - 1) / 2 = n / 2 - 1 := by omega
      have hmod : (n &&& (n - 1)) % 2 = 0 := by
        by_contra hc
        have hc1 : (n &&& (n - 1)) % 2 = 1 := by omega
        have := Nat.and_mod_two_eq_one.1 hc1
        omega
      rw [h1] at hdiv
      have hhalf : 0 < n / 2 := by omega
      have ih' := ih (n / 2) (by omega) hhalf
      constructor
      · intro h
        rw [h] at hdiv
        obtain ⟨k, hk⟩ := ih'.1 (by simpa using hdiv.symm)
        refine ⟨k + 1, ?_⟩
        rw [Nat.pow_succ]
        omega
      · rintro ⟨k, hk⟩
        cases k with
        | zero =>
          exfalso
          rw [hk] at heven
          simp at heven
        | succ k =>
          have hk2 : n / 2 = 2 ^ k := by
            rw [hk, Nat.pow_succ]
            omega
          have hz := ih'.2 ⟨k, hk2⟩
          rw [hz] at hdiv
          omega

/-- C20, power-of-two test: `is_power_of_two(num)` is `true` exactly when
`num = 2^k` for some `k < N`; it is `false` for `0` and for `3`, and `true`
for `2^(N-1)`. -/
theorem C20_is_power_of_two (w : Width) (num : Nat) (hnum : num < 2 ^ w.bits) :
    (is_power_of_two w num = true ↔ ∃ k, k < w.bits ∧ num = 2 ^ k) ∧
    is_power_of_two w 0 = false ∧ is_power_of_two w 3 = false ∧
    is_power_of_two w (2 ^ (w.bits - 1)) = true := by
  have hiff : ∀ m : Nat, is_power_of_two w m = true ↔ ∃ k, m = 2 ^ k := by
    intro m
    unfold is_power_of_two
    by_cases hm : 0 < m
    · rw [if_pos hm, decide_eq_true_iff]
      exact and_pred_eq_zero_iff m hm
    · rw [if_neg hm]
      have hm0 : m = 0 := by omega
      subst hm0
      constructor
      · intro h
        exact absurd h (by decide)
      · rintro ⟨k, hk⟩
        have := Nat.two_pow_pos k
        omega
  refine ⟨?_, ?_, ?_, ?_⟩
  · rw [hiff]
    constructor
    · rintro ⟨k, hk⟩
      refine ⟨k, ?_, hk⟩
      rw [hk] at hnum
      exact (Nat.pow_lt_pow_iff_right (by decide)).1 hnum
    · rintro ⟨k, _, hk⟩
      exact ⟨k, hk⟩
  · rfl
  · cases w <;> decide
  · exact (hiff _).2 ⟨_, rfl⟩

/-- Instance of C20 on the 16-bit value `1024` of the test, which is a power
of two. -/
theorem C20_is_power_of_two_witness :
    (1024 < 2 ^ Width.w16.bits) ∧
    ((is_power_of_two .w16 1024 = true ↔ ∃ k, k < Width.w16.bits ∧ 1024 = 2 ^ k) ∧
      is_power_of_two .w16 0 = false ∧ is_power_of_two .w16 3 = false ∧
      is_power_of_two .w16 (2 ^ (Width.w16.bits - 1)) = true) ∧
    is_power_of_two .w16 1024 = true :=
  ⟨by decide, C20_is_power_of_two .w16 1024 (by decide), by decide⟩

/-! ## Single-bit operations as fields of length 1 -/

theorem writeResult_one_testBit (w : Width) {reg : Nat} (k nv : Nat) (hreg : reg < 2 ^ w.bits)
    (hk : k < w.bits) (j : Nat) :
    (writeResult w reg k 1 nv).testBit j = if k = j then nv.testBit 0 else reg.testBit j := by
  rw [writeResult_testBit w k 1 nv hreg (by omega)]
  by_cases hkj : k = j
  · subst hkj
    simp
  · have h : ¬ (k ≤ j ∧ j < k + 1) := by omega
    rw [if_neg h, if_neg hkj]

theorem shiftRight_mod_two (v k : Nat) :
    (v >>> k) % 2 = if v.testBit k then 1 else 0 := by
  have h := Nat.testBit_to_div_mod (x := v) (i := k)
  rw [Nat.shiftRight_eq_div_pow]
  by_cases hb : v.testBit k = true
  · rw [if_pos hb]
    rw [hb] at h
    simpa using h.symm
  · rw [if_neg hb]
    have hb' : v.testBit k = false := by simpa using hb
    rw [hb'] at h
    have := Nat.mod_two_eq_zero_or_one (v / 2 ^ k)
    rcases this with h0 | h1
    · exact h0
    · rw [h1] at h
      simp at h

/-- C21, single-bit operations as field operations of length 1: for every
index in `[0, N)` all the calls return a value, `SetRegBit` returns the
register `set_bit_field(v, i, 1, 1)` returns, `ClearRegBit` the one
`set_bit_field(v, i, 1, 0)` returns, `ToggleRegBit` the one
`set_bit_field(v, i, 1, 1 - get_bit_field(v, i, 1))` returns, and `isBitSet`
is `true` exactly when `get_bit_field(v, i, 1)` is `1`. -/
theorem C21_single_bit_as_field (w : Width) (v : Nat) (i : Int) (hv : v < 2 ^ w.bits)
    (h0 : 0 ≤ i) (h1 : i < w.bits) :
    ∃ (a b c g : Nat) (t : Bool),
      SetRegBit w v i = some a ∧ set_bit_field w v i 1 1 = some a ∧
      ClearRegBit w v i = some b ∧ set_bit_field w v i 1 0 = some b ∧
      get_bit_field w v i 1 = some g ∧
      ToggleRegBit w v i = some c ∧ set_bit_field w v i 1 (1 - g) = some c ∧
      isBitSet w v i = some t ∧ (t = true ↔ g = 1) := by
  have hA := w.bits_le_arith
  have hN := w.bits_pos
  obtain ⟨k, rfl⟩ := Int.eq_ofNat_of_zero_le h0
  have hk : k < w.bits := by omega
  have hkA : k < w.arith := by omega
  have h1A : (1 : Int) < w.arith := by
    have : 8 ≤ w.bits := by cases w <;> decide
    omega
  have hset : ∀ nv, set_bit_field w v (k : Int) 1 nv = some (writeResult w v k 1 nv) := by
    intro nv
    have := set_bit_field_value w v nv (k : Int) 1 h0 (by decide) (by omega) (by omega) h1A
    simpa using this
  have hget : get_bit_field w v (k : Int) 1 = some ((v >>> k) % 2) := by
    have := get_bit_field_value w v (k : Int) 1 h0 (by decide) (by omega) (by omega) h1A
    simpa using this
  refine ⟨_, _, _, _, _, SetRegBit_nat w v hkA, ?_, ClearRegBit_nat w v hkA, ?_, hget,
    ToggleRegBit_nat w v hkA, ?_, isBitSet_nat w v hkA, ?_⟩
  · rw [hset]
    congr 1
    apply Nat.eq_of_testBit_eq
    intro j
    rw [writeResult_one_testBit w k 1 hv hk, set_testBit]
    by_cases hj : j < w.bits
    · by_cases hkj : k = j <;> simp [hj, hkj]
    · have hkj : k ≠ j := by omega
      simp [hj, hkj, testBit_eq_false_of_ge w hv hj]
  · rw [hset]
    congr 1
    apply Nat.eq_of_testBit_eq
    intro j
    rw [writeResult_one_testBit w k 0 hv hk, clear_testBit]
    by_cases hj : j < w.bits
    · by_cases hkj : k = j <;> simp [hj, hkj]
    · have hkj : k ≠ j := by omega
      simp [hj, hkj, testBit_eq_false_of_ge w hv hj]
  · rw [hset]
    congr 1
    apply Nat.eq_of_testBit_eq
    intro j
    rw [writeResult_one_testBit w k _ hv hk, toggle_testBit, shiftRight_mod_two]
    by_cases hj : j < w.bits
    · by_cases hkj : k = j
      · subst hkj
        by_cases hb : v.testBit k = true
        · simp [hj, hb]
        · have hb' : v.testBit k = false := by simpa using hb
          simp [hj, hb']
      · simp [hj, hkj]
    · have hkj : k ≠ j := by omega
      simp [hj, hkj, testBit_eq_false_of_ge w hv hj]
  · rw [shiftRight_mod_two]
    by_cases hb : v.testBit k = true
    · simp [hb]
    · have hb' : v.testBit k = false := by simpa using hb
      simp [hb']

/-- Instance of C21 on the 32-bit register of the test, bit 12. -/
theorem C21_single_bit_as_field_witness :
    (0x550000AA < 2 ^ Width.w32.bits ∧ (0 : Int) ≤ 12 ∧ (12 : Int) < Width.w32.bits) ∧
    ∃ (a b c g : Nat) (t : Bool),
      SetRegBit .w32 0x550000AA 12 = some a ∧ set_bit_field .w32 0x550000AA 12 1 1 = some a ∧
      ClearRegBit .w32 0x550000AA 12 = some b ∧ set_bit_field .w32 0x550000AA 12 1 0 = some b ∧
      get_bit_field .w32 0x550000AA 12 1 = some g ∧
      ToggleRegBit .w32 0x550000AA 12 = some c ∧
      set_bit_field .w32 0x550000AA 12 1 (1 - g) = some c ∧
      isBitSet .w32 0x550000AA 12 = some t ∧ (t = true ↔ g = 1) :=
  ⟨by decide, C21_single_bit_as_field .w32 0x550000AA 12 (by decide) (by decide) (by decide)⟩

/-- C24, single-bit operations touch only the indexed bit: for `i`, `j` in
`[0, N)` with `j ≠ i` the three operations return registers of `N` bits whose
bit `j` is bit `j` of `v`, and bit `i` of the toggled register is the negation
of bit `i` of `v`. -/
theorem C24_single_bit_frame (w : Width) (v : Nat) (i : Int) (j : Nat)
    (h0 : 0 ≤ i) (h1 : i < w.bits) (hj : j < w.bits) (hji : (j : Int) ≠ i) :
    ∃ a b c, SetRegBit w v i = some a ∧ ClearRegBit w v i = some b ∧
      ToggleRegBit w v i = some c ∧
      a < 2 ^ w.bits ∧ b < 2 ^ w.bits ∧ c < 2 ^ w.bits ∧
      a.testBit j = v.testBit j ∧ b.testBit j = v.testBit j ∧ c.testBit j = v.testBit j ∧
      c.testBit i.toNat = !v.testBit i.toNat := by
  have hA := w.bits_le_arith
  obtain ⟨k, rfl⟩ := Int.eq_ofNat_of_zero_le h0
  have hk : k < w.bits := by omega
  have hkA : k < w.arith := by omega
  have hkj : k ≠ j := by omega
  refine ⟨_, _, _, SetRegBit_nat w v hkA, ClearRegBit_nat w v hkA, ToggleRegBit_nat w v hkA,
    Nat.mod_lt _ (Nat.two_pow_pos _), Nat.mod_lt _ (Nat.two_pow_pos _),
    Nat.mod_lt _ (Nat.two_pow_pos _), ?_, ?_, ?_, ?_⟩
  · rw [set_testBit]
    simp [hj, hkj]
  · rw [clear_testBit]
    simp [hj, hkj]
  · rw [toggle_testBit]
    simp [hj, hkj]
  · rw [Int.toNat_ofNat, toggle_testBit]
    simp [hk]

/-- Instance of C24 on an 8-bit register, clearing, setting and toggling bit 7
and looking at bit 0. -/
theorem C24_single_bit_frame_witness :
    ((0 : Int) ≤ 7 ∧ (7 : Int) < Width.w8.bits ∧ 0 < Width.w8.bits ∧ ((0 : Nat) : Int) ≠ 7) ∧
    ∃ a b c, SetRegBit .w8 0xAA 7 = some a ∧ ClearRegBit .w8 0xAA 7 = some b ∧
      ToggleRegBit .w8 0xAA 7 = some c ∧
      a < 2 ^ Width.w8.bits ∧ b < 2 ^ Width.w8.bits ∧ c < 2 ^ Width.w8.bits ∧
      a.testBit 0 = (0xAA : Nat).testBit 0 ∧ b.testBit 0 = (0xAA : Nat).testBit 0 ∧
      c.testBit 0 = (0xAA : Nat).testBit 0 ∧
      c.testBit (7 : Int).toNat = !(0xAA : Nat).testBit (7 : Int).toNat :=
  ⟨by decide, C24_single_bit_frame .w8 0xAA 7 0 (by decide) (by decide) (by decide) (by decide)⟩

/-! ## Rotation and population count -/

theorem countP_range_split (p : Nat → Bool) (a b : Nat) :
    (List.range (a + b)).countP p =
      (List.range' 0 a).countP p + (List.range' a b).countP p := by
  have h : List.range (a + b) = List.range' 0 a ++ List.range' (0 + a) b := by
    rw [List.range_eq_range', List.range'_append_1, Nat.add_comm]
  rw [h, List.countP_append, Nat.zero_add]

theorem countP_range'_shift (p : Nat → Bool) (a n : Nat) :
    (List.range' a n).countP p = (List.range' 0 n).countP (fun i => p (a + i)) := by
  have h : List.range' a n = List.map (a + ·) (List.range' 0 n) := by
    rw [List.map_add_range', Nat.add_zero]
  rw [h, List.countP_map]
  rfl

theorem countP_testBit_rotr {N reg t : Nat} (hreg : reg < 2 ^ N) (ht : t < N) :
    (List.range N).countP (fun i => (rotr N reg t).testBit i) =
      (List.range N).countP (fun i => reg.testBit i) := by
  have h1 : (List.range N).countP (fun i => (rotr N reg t).testBit i) =
      (List.range N).countP (fun i => reg.testBit ((i + t) % N)) := by
    apply List.countP_congr
    intro i hi
    rw [rotr_testBit_add hreg ht (List.mem_range.1 hi)]
  rw [h1]
  have hl : (List.range N).countP (fun i => reg.testBit ((i + t) % N)) =
      (List.range' 0 (N - t)).countP (fun i => reg.testBit ((i + t) % N)) +
        (List.range' (N - t) t).countP (fun i => reg.testBit ((i + t) % N)) := by
    have h := countP_range_split (fun i => reg.testBit ((i + t) % N)) (N - t) t
    rwa [Nat.sub_add_cancel (Nat.le_of_lt ht)] at h
  have hr : (List.range N).countP (fun i => reg.testBit i) =
      (List.range' 0 t).countP (fun i => reg.testBit i) +
        (List.range' t (N - t)).countP (fun i => reg.testBit i) := by
    have h := countP_range_split (fun i => reg.testBit i) t (N - t)
    rwa [Nat.add_sub_of_le (Nat.le_of_lt ht)] at h
  have ha : (List.range' 0 (N - t)).countP (fun i => reg.testBit ((i + t) % N)) =
      (List.range' t (N - t)).countP (fun i => reg.testBit i) := by
    rw [countP_range'_shift (fun i => reg.testBit i) t (N - t)]
    apply List.countP_congr
    intro i hi
    have hi' : i < N - t := by
      have := List.mem_range'_1.1 hi
      omega
    rw [Nat.mod_eq_of_lt (by omega), Nat.add_comm]
  have hb : (List.range' (N - t) t).countP (fun i => reg.testBit ((i + t) % N)) =
      (List.range' 0 t).countP (fun i => reg.testBit i) := by
    rw [countP_range'_shift (fun i => reg.testBit ((i + t) % N)) (N - t) t]
    apply List.countP_congr
    intro i hi
    have hi' : i < t := by
      have := List.mem_range'_1.1 hi
      omega
    have hm : (N - t + i + t) % N = i := by
      have : N - t + i + t = i + N := by omega
      rw [this, Nat.add_mod_right, Nat.mod_eq_of_lt (by omega)]
    simp only [hm]
  rw [hl, hr, ha, hb, Nat.add_comm]

theorem countP_testBit_rotl {N reg t : Nat} (hreg : reg < 2 ^ N) (ht : t < N) :
    (List.range N).countP (fun i => (rotl N reg t).testBit i) =
      (List.range N).countP (fun i => reg.testBit i) := by
  have h := countP_testBit_rotr (rotl_lt N reg t) ht
  rw [rotr_rotl hreg ht] at h
  exact h.symm

/-- Rotation preserves the population count, for every reduced shift
`0 ≤ s < N` that is not zero on `uint32_t` / `uint64_t`, with fuel for `N`
executions of the counting loop. -/
theorem rotate_preserves_popcount (w : Width) (v fuel : Nat) (s : Int) (hv : v < 2 ^ w.bits)
    (hfuel : w.bits ≤ fuel) (h0 : 0 ≤ s) (h1 : s < w.bits) (hsafe : s ≠ 0 ∨ w.bits ≤ 16) :
    ∃ c, count_set_bits w fuel v = some c ∧
      (RotateLeft w v s).bind (count_set_bits w fuel) = some c ∧
      (RotateRight w v s).bind (count_set_bits w fuel) = some c := by
  have hmod : s % (w.bits : Int) = s := Int.emod_eq_of_lt h0 h1
  have hsafe' : s % (w.bits : Int) ≠ 0 ∨ w.promoted = true := by
    rcases hsafe with h | h
    · left; rw [hmod]; exact h
    · exact Or.inr (w.promoted_of_bits_le h)
  have ht : s.toNat < w.bits := by omega
  refine ⟨_, count_set_bits_eq w v fuel hv hfuel, ?_, ?_⟩
  · rw [RotateLeft_value w v s hv (Or.inl h0) hsafe', hmod, Option.some_bind,
      count_set_bits_eq w _ fuel (rotl_lt _ _ _) hfuel, countP_testBit_rotl hv ht]
  · rw [RotateRight_value w v s hv (Or.inl h0) hsafe', hmod, Option.some_bind,
      count_set_bits_eq w _ fuel (rotr_lt _ _ _) hfuel, countP_testBit_rotr hv ht]

/-! ## Termination of the scanning loops -/

theorem first_set_loop_zero (w : Width) :
    ∀ fuel c : Nat, first_set_loop w fuel 0 c = none := by
  intro fuel
  induction fuel with
  | zero =>
    intro c
    simp [first_set_loop]
  | succ fuel ih =>
    intro c
    have h : narrow w (0 >>> 1) = 0 := by simp [narrow]
    rw [first_set_loop, if_neg (by simp), h, ih]

/-- C23, the scanning loops terminate: `count_set_bits` returns within `N`
executions of its loop body; `find_first_set_bit` returns for `0` without
running its loop and for a non-zero register within `N - 1` executions of the
loop body; the loop itself, entered with `0`, does not end with any fuel. -/
theorem C23_loops_terminate (w : Width) (reg : Nat) (hreg : reg < 2 ^ w.bits) :
    (∃ c, count_set_bits w w.bits reg = some c) ∧
    find_first_set_bit w 0 0 = some (-1) ∧
    (reg ≠ 0 → ∃ r, find_first_set_bit w (w.bits - 1) reg = some r) ∧
    (∀ fuel c : Nat, first_set_loop w fuel 0 c = none) := by
  refine ⟨⟨_, count_set_bits_eq w reg w.bits hreg (Nat.le_refl _)⟩, ?_, ?_,
    first_set_loop_zero w⟩
  · simp [find_first_set_bit]
  · intro h0
    obtain ⟨r, hr, _⟩ :=
      first_set_loop_spec w (w.bits - 1) w.bits reg 0 (Nat.le_refl _) h0 hreg (by omega)
    refine ⟨(r : Int), ?_⟩
    rw [find_first_set_bit, if_neg h0, hr, Nat.zero_add]
    rfl

/-- Instance of C23 on the 8-bit register `0x80`, which needs all 8 and 7
executions of the loop bodies. -/
theorem C23_loops_terminate_witness :
    (0x80 < 2 ^ Width.w8.bits) ∧
    ((∃ c, count_set_bits .w8 Width.w8.bits 0x80 = some c) ∧
      find_first_set_bit .w8 0 0 = some (-1) ∧
      ((0x80 : Nat) ≠ 0 → ∃ r, find_first_set_bit .w8 (Width.w8.bits - 1) 0x80 = some r) ∧
      (∀ fuel c : Nat, first_set_loop .w8 fuel 0 c = none)) ∧
    count_set_bits .w8 7 0x80 = none ∧ find_first_set_bit .w8 6 0x80 = none :=
  ⟨by decide, C23_loops_terminate .w8 0x80 (by decide), by decide, by decide⟩

/-! ## The compiled reading: field writes -/

theorem shlB_of_lt (p : Build) {A : Nat} (sgn : Bool) (x : Nat) {k : Int} (h : k < (A : Int)) :
    shlB p A sgn x k = shl A sgn x k := by
  unfold shlB
  rw [if_neg (by omega)]

theorem shrB_of_lt (p : Build) {A : Nat} (x : Nat) {k : Int} (h : k < (A : Int)) :
    shrB p A x k = shr A x k := by
  unfold shrB
  rw [if_neg (by omega)]

theorem tmod_lt_bits (w : Width) (shift : Int) : Int.tmod shift w.bits < (w.bits : Int) :=
  Int.tmod_lt_of_pos _ (by exact_mod_cast w.bits_pos)

/-- When the counts are below the width of the arithmetic type the compiled
reading of `RotateLeft` is the reading of the standard. -/
theorem RotateLeftB_of_lt (p : Build) (w : Width) (v : Nat) {shift : Int}
    (h : (w.bits : Int) - Int.tmod shift w.bits < (w.arith : Int)) :
    RotateLeftB p w v shift = RotateLeft w v shift := by
  have hA := w.bits_le_arith
  have ht := tmod_lt_bits w shift
  unfold RotateLeftB RotateLeft
  simp only [shlB_of_lt p _ _ (by omega : Int.tmod shift w.bits < (w.arith : Int)),
    shrB_of_lt p _ h]

/-- When the counts are below the width of the arithmetic type the compiled
reading of `RotateRight` is the reading of the standard. -/
theorem RotateRightB_of_lt (p : Build) (w : Width) (v : Nat) {shift : Int}
    (h : (w.bits : Int) - Int.tmod shift w.bits < (w.arith : Int)) :
    RotateRightB p w v shift = RotateRight w v shift := by
  have hA := w.bits_le_arith
  have ht := tmod_lt_bits w shift
  unfold RotateRightB RotateRight
  simp only [shrB_of_lt p _ (by omega : Int.tmod shift w.bits < (w.arith : Int)),
    shlB_of_lt p _ _ h]

/-- On `uint32_t` and `uint64_t` a remainder of zero makes the compiled code
shift by the width of the type; with either value of that shift both rotations
return the register. -/
theorem Rotate_zero_remainder_built (p : Build) (w : Width) {v : Nat} (shift : Int)
    (hv : v < 2 ^ w.bits) (hw : w.promoted = false) (h : Int.tmod shift w.bits = 0) :
    RotateLeftB p w v shift = some v ∧ RotateRightB p w v shift = some v := by
  have hAN := w.arith_eq_bits_of_not_promoted hw
  have hA : 0 < w.arith := by rw [hAN]; exact w.bits_pos
  have hvA : v < 2 ^ w.arith := by rw [hAN]; exact hv
  have hself : ((w.arith : Int) % (w.arith : Int)) = ((0 : Nat) : Int) := by simp
  have hshl0 : shl w.arith false v ((0 : Nat) : Int) = some v := by
    rw [shl_unsigned hA]
    simp [Nat.mod_eq_of_lt hvA]
  have hshr0 : shr w.arith v ((0 : Nat) : Int) = some v := by
    rw [shr_of_lt hA]
    simp
  have hnv : narrow w v = v := Nat.mod_eq_of_lt hv
  constructor
  · unfold RotateLeftB
    simp only [h, Int.sub_zero, hw]
    rw [shlB_of_lt p false v (by exact_mod_cast hA : (0 : Int) < (w.arith : Int))]
    have h0 : shl w.arith false v 0 = some v := hshl0
    rw [h0, ← hAN]
    unfold shrB
    rw [if_pos (Int.le_refl _)]
    cases p with
    | countModWidth =>
      simp only [hself, hshr0, Option.bind_eq_bind, Option.some_bind, Option.pure_def,
        Nat.or_self]
      rw [narrow, Nat.mod_eq_of_lt hv]
    | shiftedOut =>
      simp only [Option.bind_eq_bind, Option.some_bind, Option.pure_def, Nat.or_zero]
      rw [narrow, Nat.mod_eq_of_lt hv]
  · unfold RotateRightB
    simp only [h, Int.sub_zero, hw]
    rw [shrB_of_lt p v (by exact_mod_cast hA : (0 : Int) < (w.arith : Int))]
    have h0 : shr w.arith v 0 = some v := hshr0
    rw [h0, ← hAN]
    unfold shlB
    rw [if_pos (Int.le_refl _)]
    cases p with
    | countModWidth =>
      simp only [hself, hshl0, Option.bind_eq_bind, Option.some_bind, Option.pure_def,
        Nat.or_self]
      rw [narrow, Nat.mod_eq_of_lt hv]
    | shiftedOut =>
      simp only [Option.bind_eq_bind, Option.some_bind, Option.pure_def, Nat.or_zero]
      rw [narrow, Nat.mod_eq_of_lt hv]

theorem rotate_counts_lt (w : Width) {shift : Int}
    (hs : 0 ≤ shift ∨ (w.bits : Int) ∣ shift)
    (hsafe : shift % (w.bits : Int) ≠ 0 ∨ w.promoted = true) :
    (w.bits : Int) - Int.tmod shift w.bits < (w.arith : Int) := by
  have hA := w.bits_le_arith
  obtain ⟨k, hk, hke, hkt⟩ := tmod_eq_residue w hs
  rw [hkt]
  rcases hsafe with h | h
  · omega
  · have := w.promoted_bits h
    have := w.promoted_arith h
    omega

/-- Value of `RotateLeft`, as the compiled code evaluates it, for every shift
whose C++ remainder is non-negative. -/
theorem RotateLeftB_value (p : Build) (w : Width) (v : Nat) (shift : Int)
    (hv : v < 2 ^ w.bits) (hs : 0 ≤ shift ∨ (w.bits : Int) ∣ shift) :
    RotateLeftB p w v shift = some (rotl w.bits v (shift % (w.bits : Int)).toNat) := by
  by_cases hsafe : shift % (w.bits : Int) ≠ 0 ∨ w.promoted = true
  · rw [RotateLeftB_of_lt p w v (rotate_counts_lt w hs hsafe),
      RotateLeft_value w v shift hv hs hsafe]
  · have hz : shift % (w.bits : Int) = 0 := by
      by_contra hc
      exact hsafe (Or.inl hc)
    have hw : w.promoted = false := by
      cases hp : w.promoted with
      | true => exact absurd (Or.inr hp) hsafe
      | false => rfl
    obtain ⟨k, _, hke, hkt⟩ := tmod_eq_residue w hs
    have ht : Int.tmod shift w.bits = 0 := by rw [hkt, hke, hz]
    rw [(Rotate_zero_remainder_built p w shift hv hw ht).1, hz]
    simp [rotl_zero hv]

/-- Value of `RotateRight`, as the compiled code evaluates it, for every shift
whose C++ remainder is non-negative. -/
theorem RotateRightB_value (p : Build) (w : Width) (v : Nat) (shift : Int)
    (hv : v < 2 ^ w.bits) (hs : 0 ≤ shift ∨ (w.bits : Int) ∣ shift) :
    RotateRightB p w v shift = some (rotr w.bits v (shift % (w.bits : Int)).toNat) := by
  by_cases hsafe : shift % (w.bits : Int) ≠ 0 ∨ w.promoted = true
  · rw [RotateRightB_of_lt p w v (rotate_counts_lt w hs hsafe),
      RotateRight_value w v shift hv hs hsafe]
  · have hz : shift % (w.bits : Int) = 0 := by
      by_contra hc
      exact hsafe (Or.inl hc)
    have hw : w.promoted = false := by
      cases hp : w.promoted with
      | true => exact absurd (Or.inr hp) hsafe
      | false => rfl
    obtain ⟨k, _, hke, hkt⟩ := tmod_eq_residue w hs
    have ht : Int.tmod shift w.bits = 0 := by rw [hkt, hke, hz]
    rw [(Rotate_zero_remainder_built p w shift hv hw ht).2, hz]
    simp [rotr_zero hv]

/-- A negative C++ remainder leaves both rotations without a value in the
compiled reading too: the first shift of each has a negative count. -/
theorem Rotate_negative_remainder_built (p : Build) (w : Width) (v : Nat) (shift : Int)
    (h : Int.tmod shift w.bits < 0) :
    RotateLeftB p w v shift = none ∧ RotateRightB p w v shift = none := by
  constructor
  · unfold RotateLeftB
    simp only [shlB_of_lt p _ _ (by omega : Int.tmod shift w.bits < (w.arith : Int)),
      shl_neg _ _ _ h]
    rfl
  · unfold RotateRightB
    simp only [shrB_of_lt p _ (by omega : Int.tmod shift w.bits < (w.arith : Int))]
    simp [shr, h]

/-- The round trip of the rotations, as the compiled code evaluates them, for
every shift that is non-negative or a multiple of `N`. -/
theorem rotation_roundtrip_built (p : Build) (w : Width) (v : Nat) (s : Int)
    (hv : v < 2 ^ w.bits) (hs : 0 ≤ s ∨ (w.bits : Int) ∣ s) :
    ∃ r, RotateLeftB p w v s = some r ∧ r < 2 ^ w.bits ∧ RotateRightB p w r s = some v := by
  refine ⟨_, RotateLeftB_value p w v s hv hs, rotl_lt _ _ _, ?_⟩
  rw [RotateRightB_value p w _ s (rotl_lt _ _ _) hs, rotr_rotl hv (residue_toNat_lt w s)]

/-- Reduction of the shift, as the compiled code evaluates the rotations, for
every shift that is non-negative or a multiple of `N`: the result is the one
for the residue in `[0, N)`, and it is a register. -/
theorem shift_reduction_built (p : Build) (w : Width) (v : Nat) (shift : Int)
    (hv : v < 2 ^ w.bits) (hs : 0 ≤ shift ∨ (w.bits : Int) ∣ shift) :
    ∃ l r, RotateLeftB p w v shift = some l ∧ RotateRightB p w v shift = some r ∧
      RotateLeftB p w v (shift % (w.bits : Int)) = some l ∧
      RotateRightB p w v (shift % (w.bits : Int)) = some r ∧
      l < 2 ^ w.bits ∧ r < 2 ^ w.bits := by
  have hN : (0 : Int) < (w.bits : Int) := by exact_mod_cast w.bits_pos
  have hnn : 0 ≤ shift % (w.bits : Int) := Int.emod_nonneg _ (by omega)
  have hidem : shift % (w.bits : Int) % (w.bits : Int) = shift % (w.bits : Int) :=
    Int.emod_emod_of_dvd _ (Int.dvd_refl _)
  refine ⟨_, _, RotateLeftB_value p w v shift hv hs, RotateRightB_value p w v shift hv hs,
    ?_, ?_, rotl_lt _ _ _, rotr_lt _ _ _⟩
  · rw [RotateLeftB_value p w v _ hv (Or.inl hnn), hidem]
  · rw [RotateRightB_value p w v _ hv (Or.inl hnn), hidem]

end Bitops
